import Mathlib

/-!
Verification of the starcode core (src/starcode.c) against its
natural-language specification.  The C functions used by the claims are
embedded shallowly: pure computations become Lean functions over lists,
machine integers become `Nat`/`Int`, byte strings become `List Char`
(C strings carry no interior NUL byte, so running off the end of the
list models reading the terminator).
-/

set_option maxHeartbeats 1000000

namespace Starcode

/-- A sequence record (`useq_t`): a byte string and an occurrence count.
The `info` string plays no role in the claims about sorting. -/
structure useq where
  seq   : List Char
  count : Nat
deriving DecidableEq, Repr

/-- C `strcmp` on NUL-free byte strings: lexicographic comparison,
a proper prefix comparing less (the shorter string hits its terminator
first). -/
def strcmp : List Char → List Char → Ordering
  | [], [] => .eq
  | [], _ :: _ => .lt
  | _ :: _, [] => .gt
  | a :: as, b :: bs =>
      if a < b then .lt else if b < a then .gt else strcmp as bs

/-- The comparison used by `nukesort` (lines 573-576): shorter sequence
first, ties broken by `strcmp` on the bytes. -/
def useq_cmp (ul ur : useq) : Ordering :=
  if ul.seq.length = ur.seq.length then strcmp ul.seq ur.seq
  else if ul.seq.length < ur.seq.length then .lt else .gt

/-- The strict order in which `nukesort` emits records: shorter first,
equal lengths ordered lexicographically by byte value. -/
def useq_lt (ul ur : useq) : Prop :=
  ul.seq.length < ur.seq.length ∨
    (ul.seq.length = ur.seq.length ∧ List.Lex (· < ·) ul.seq ur.seq)

instance : DecidableRel useq_lt := by
  unfold useq_lt; infer_instance

/-- The merge loop of `nukesort` (lines 556-589) restricted to the
meaningful (non-NULL) prefixes of the two half buffers: on equality the
right record's count is added to the left record, the right record is
destroyed and one repeat is counted; otherwise the smaller record is
emitted.  Returns the merged run together with the number of repeats
found during this merge. -/
def nmerge : List useq → List useq → List useq × Nat
  | [], r => (r, 0)
  | l, [] => (l, 0)
  | ul :: ls, ur :: rs =>
      match useq_cmp ul ur with
      | .eq =>
          let p := nmerge ls rs
          ({ seq := ul.seq, count := ul.count + ur.count } :: p.1, p.2 + 1)
      | .lt =>
          let p := nmerge ls (ur :: rs)
          (ul :: p.1, p.2)
      | .gt =>
          let p := nmerge (ul :: ls) rs
          (ur :: p.1, p.2)
termination_by l r => l.length + r.length

/-- `nukesort` (lines 492-600): recursive merge sort with destructive
coalescing of equal sequences.  The first component is the run of
surviving records (the non-NULL prefix of the buffer), the second the
accumulated number of repeats of the subtree.  The left half has
`size/2` elements and the right half the rest, exactly as in
`arg1.size = size/2`, `arg2.size = arg1.size + size%2`. -/
def nukesort (l : List useq) : List useq × Nat :=
  if h : l.length < 2 then (l, 0)
  else
    let s1 := nukesort (l.take (l.length / 2))
    let s2 := nukesort (l.drop (l.length / 2))
    let m := nmerge s1.1 s2.1
    (m.1, m.2 + s1.2 + s2.2)
termination_by l.length
decreasing_by
  · simp only [List.length_take]; omega
  · simp only [List.length_drop]; omega

/-- `seqsort` (lines 439-490): sorts the buffer in place and returns
`numels - repeats`.  The final buffer contents are the surviving
records at the front followed by NULL slots (modelled by `Option`),
paired with the returned count. -/
def seqsort (data : List useq) : List (Option useq) × Nat :=
  let s := nukesort data
  (s.1.map some ++ List.replicate s.2 none, data.length - s.2)

/-- Total number of occurrences held by a list of records. -/
def countSum (l : List useq) : Nat := (l.map useq.count).sum

lemma strcmp_eq_iff : ∀ {a b : List Char}, strcmp a b = .eq ↔ a = b := by
  intro a
  induction a with
  | nil => intro b; cases b <;> simp [strcmp]
  | cons x as ih =>
      intro b
      cases b with
      | nil => simp [strcmp]
      | cons y bs =>
          simp only [strcmp]
          rcases lt_trichotomy x y with h | h | h
          · rw [if_pos h]
            constructor
            · intro hc; exact absurd hc (by simp)
            · intro hc; cases hc; exact absurd h (lt_irrefl x)
          · subst h; simp [lt_irrefl, ih]
          · rw [if_neg (lt_asymm h), if_pos h]
            constructor
            · intro hc; exact absurd hc (by simp)
            · intro hc; cases hc; exact absurd h (lt_irrefl x)

lemma strcmp_lt_iff : ∀ {a b : List Char},
    strcmp a b = .lt ↔ List.Lex (· < ·) a b := by
  intro a
  induction a with
  | nil =>
      intro b
      cases b with
      | nil => simp [strcmp]
      | cons y bs =>
          simp only [strcmp]
          exact ⟨fun _ => List.Lex.nil, fun _ => trivial⟩
  | cons x as ih =>
      intro b
      cases b with
      | nil =>
          simp only [strcmp]
          constructor
          · intro hc; exact absurd hc (by simp)
          · intro hl; cases hl
      | cons y bs =>
          simp only [strcmp]
          rcases lt_trichotomy x y with h | h | h
          · rw [if_pos h]
            exact ⟨fun _ => List.Lex.rel h, fun _ => rfl⟩
          · subst h
            rw [if_neg (lt_irrefl x), if_neg (lt_irrefl x)]
            constructor
            · intro hl; exact List.Lex.cons (ih.mp hl)
            · intro hl
              cases hl with
              | cons h => exact ih.mpr h
              | rel h => exact absurd h (lt_irrefl x)
          · rw [if_neg (lt_asymm h), if_pos h]
            constructor
            · intro hc; exact absurd hc (by simp)
            · intro hl
              cases hl with
              | cons _ => exact absurd h (lt_irrefl x)
              | rel h' => exact absurd h' (lt_asymm h)

lemma strcmp_gt_iff : ∀ {a b : List Char},
    strcmp a b = .gt ↔ strcmp b a = .lt := by
  intro a
  induction a with
  | nil => intro b; cases b <;> simp [strcmp]
  | cons x as ih =>
      intro b
      cases b with
      | nil => simp [strcmp]
      | cons y bs =>
          simp only [strcmp]
          rcases lt_trichotomy x y with h | h | h
          · simp [h, lt_asymm h]
          · subst h; simp [lt_irrefl, ih]
          · simp [h, lt_asymm h]

lemma useq_cmp_eq_iff {a b : useq} : useq_cmp a b = .eq ↔ a.seq = b.seq := by
  unfold useq_cmp
  by_cases h : a.seq.length = b.seq.length
  · simp [h, strcmp_eq_iff]
  · have : a.seq ≠ b.seq := fun hc => h (by rw [hc])
    by_cases h2 : a.seq.length < b.seq.length <;> simp [h, h2, this]

lemma useq_cmp_lt_iff {a b : useq} : useq_cmp a b = .lt ↔ useq_lt a b := by
  unfold useq_cmp useq_lt
  by_cases h : a.seq.length = b.seq.length
  · simp [h, strcmp_lt_iff]
  · by_cases h2 : a.seq.length < b.seq.length <;> simp [h, h2]

lemma useq_cmp_gt_iff {a b : useq} : useq_cmp a b = .gt ↔ useq_lt b a := by
  unfold useq_cmp
  by_cases h : a.seq.length = b.seq.length
  · rw [if_pos h, strcmp_gt_iff, strcmp_lt_iff]
    unfold useq_lt
    simp [h.symm, lt_irrefl]
  · by_cases h2 : a.seq.length < b.seq.length
    · simp only [if_neg h, if_pos h2]
      unfold useq_lt
      constructor
      · intro hc; cases hc
      · rintro (h3 | ⟨h3, _⟩) <;> omega
    · rw [if_neg h, if_neg h2]
      unfold useq_lt
      exact ⟨fun _ => Or.inl (by omega), fun _ => rfl⟩

lemma lex_lt_trans : ∀ {a b c : List Char}, List.Lex (· < ·) a b →
    List.Lex (· < ·) b c → List.Lex (· < ·) a c := by
  intro a b c h1
  induction h1 generalizing c with
  | nil =>
      intro h2
      cases h2 with
      | rel _ => exact List.Lex.nil
      | cons _ => exact List.Lex.nil
  | @cons x as bs h ih =>
      intro h2
      cases h2 with
      | rel hr => exact List.Lex.rel hr
      | cons hc => exact List.Lex.cons (ih hc)
  | @rel as x bs y h =>
      intro h2
      cases h2 with
      | rel hr => exact List.Lex.rel (lt_trans h hr)
      | cons _ => exact List.Lex.rel h

lemma lex_lt_irrefl : ∀ {a : List Char}, ¬ List.Lex (· < ·) a a := by
  intro a
  induction a with
  | nil => intro h; cases h
  | cons x as ih =>
      intro h
      cases h with
      | rel hr => exact absurd hr (lt_irrefl x)
      | cons hc => exact ih hc

lemma useq_lt_trans {a b c : useq} (h1 : useq_lt a b) (h2 : useq_lt b c) :
    useq_lt a c := by
  unfold useq_lt at *
  rcases h1 with h1 | ⟨e1, l1⟩
  · rcases h2 with h2 | ⟨e2, _⟩
    · left; omega
    · left; omega
  · rcases h2 with h2 | ⟨e2, l2⟩
    · left; omega
    · exact Or.inr ⟨by omega, lex_lt_trans l1 l2⟩

lemma useq_lt_seq_ne {a b : useq} (h : useq_lt a b) : a.seq ≠ b.seq := by
  intro hc
  unfold useq_lt at h
  rcases h with h | ⟨_, hl⟩
  · rw [hc] at h; omega
  · rw [hc] at hl
    exact lex_lt_irrefl hl

lemma nmerge_nil_left (r : List useq) : nmerge [] r = (r, 0) := by
  cases r <;> simp [nmerge]

lemma nmerge_nil_right (l : List useq) : nmerge l [] = (l, 0) := by
  cases l <;> simp [nmerge]

lemma nmerge_cons_eq {ul ur : useq} {ls rs : List useq}
    (h : useq_cmp ul ur = .eq) :
    nmerge (ul :: ls) (ur :: rs) =
      ({ seq := ul.seq, count := ul.count + ur.count } :: (nmerge ls rs).1,
        (nmerge ls rs).2 + 1) := by
  simp [nmerge, h]

lemma nmerge_cons_lt {ul ur : useq} {ls rs : List useq}
    (h : useq_cmp ul ur = .lt) :
    nmerge (ul :: ls) (ur :: rs) =
      (ul :: (nmerge ls (ur :: rs)).1, (nmerge ls (ur :: rs)).2) := by
  simp [nmerge, h]

lemma nmerge_cons_gt {ul ur : useq} {ls rs : List useq}
    (h : useq_cmp ul ur = .gt) :
    nmerge (ul :: ls) (ur :: rs) =
      (ur :: (nmerge (ul :: ls) rs).1, (nmerge (ul :: ls) rs).2) := by
  simp [nmerge, h]

/-- Every record emitted by the merge carries the sequence of a record
of one of the two inputs (only counts are altered by coalescing). -/
lemma nmerge_mem : ∀ {l r : List useq} {x : useq}, x ∈ (nmerge l r).1 →
    (∃ u ∈ l, u.seq = x.seq) ∨ (∃ u ∈ r, u.seq = x.seq) := by
  intro l r
  induction l, r using nmerge.induct with
  | case1 r =>
      intro x hx
      rw [nmerge_nil_left] at hx
      exact Or.inr ⟨x, hx, rfl⟩
  | case2 l hne =>
      intro x hx
      rw [nmerge_nil_right] at hx
      exact Or.inl ⟨x, hx, rfl⟩
  | case3 ul ls ur rs hcmp ih =>
      intro x hx
      rw [nmerge_cons_eq hcmp] at hx
      rcases List.mem_cons.mp hx with h | h
      · subst h; exact Or.inl ⟨ul, List.mem_cons_self _ _, rfl⟩
      · rcases ih h with ⟨u, hu, he⟩ | ⟨u, hu, he⟩
        · exact Or.inl ⟨u, List.mem_cons_of_mem _ hu, he⟩
        · exact Or.inr ⟨u, List.mem_cons_of_mem _ hu, he⟩
  | case4 ul ls ur rs hcmp ih =>
      intro x hx
      rw [nmerge_cons_lt hcmp] at hx
      rcases List.mem_cons.mp hx with h | h
      · subst h; exact Or.inl ⟨x, List.mem_cons_self _ _, rfl⟩
      · rcases ih h with ⟨u, hu, he⟩ | hr
        · exact Or.inl ⟨u, List.mem_cons_of_mem _ hu, he⟩
        · exact Or.inr hr
  | case5 ul ls ur rs hcmp ih =>
      intro x hx
      rw [nmerge_cons_gt hcmp] at hx
      rcases List.mem_cons.mp hx with h | h
      · subst h; exact Or.inr ⟨x, List.mem_cons_self _ _, rfl⟩
      · rcases ih h with hl | ⟨u, hu, he⟩
        · exact Or.inl hl
        · exact Or.inr ⟨u, List.mem_cons_of_mem _ hu, he⟩

lemma useq_lt_of_seq_eq {a a' b b' : useq} (ha : a.seq = a'.seq)
    (hb : b.seq = b'.seq) (h : useq_lt a b) : useq_lt a' b' := by
  unfold useq_lt at *
  rw [← ha, ← hb]
  exact h

/-- Merging two strictly sorted runs yields a strictly sorted run:
coalescing guarantees no equal sequences survive. -/
lemma nmerge_sorted : ∀ {l r : List useq}, List.Pairwise useq_lt l →
    List.Pairwise useq_lt r → List.Pairwise useq_lt (nmerge l r).1 := by
  intro l r
  induction l, r using nmerge.induct with
  | case1 r =>
      intro _ hr
      rw [nmerge_nil_left]
      exact hr
  | case2 l hne =>
      intro hl _
      rw [nmerge_nil_right]
      exact hl
  | case3 ul ls ur rs hcmp ih =>
      intro hl hr
      rw [nmerge_cons_eq hcmp]
      rcases List.pairwise_cons.mp hl with ⟨hul, hls⟩
      rcases List.pairwise_cons.mp hr with ⟨hur, hrs⟩
      refine List.pairwise_cons.mpr ⟨?_, ih hls hrs⟩
      intro x hx
      have hseq : ul.seq = ur.seq := useq_cmp_eq_iff.mp hcmp
      rcases nmerge_mem hx with ⟨u, hu, he⟩ | ⟨u, hu, he⟩
      · exact useq_lt_of_seq_eq rfl he (hul u hu)
      · exact useq_lt_of_seq_eq hseq.symm he (hur u hu)
  | case4 ul ls ur rs hcmp ih =>
      intro hl hr
      rw [nmerge_cons_lt hcmp]
      rcases List.pairwise_cons.mp hl with ⟨hul, hls⟩
      refine List.pairwise_cons.mpr ⟨?_, ih hls hr⟩
      intro x hx
      have hlt : useq_lt ul ur := useq_cmp_lt_iff.mp hcmp
      rcases nmerge_mem hx with ⟨u, hu, he⟩ | ⟨u, hu, he⟩
      · exact useq_lt_of_seq_eq rfl he (hul u hu)
      · rcases List.mem_cons.mp hu with h | h
        · subst h; exact useq_lt_of_seq_eq rfl he hlt
        · rcases List.pairwise_cons.mp hr with ⟨hur, _⟩
          exact useq_lt_of_seq_eq rfl he (useq_lt_trans hlt (hur u h))
  | case5 ul ls ur rs hcmp ih =>
      intro hl hr
      rw [nmerge_cons_gt hcmp]
      rcases List.pairwise_cons.mp hr with ⟨hur, hrs⟩
      refine List.pairwise_cons.mpr ⟨?_, ih hl hrs⟩
      intro x hx
      have hlt : useq_lt ur ul := useq_cmp_gt_iff.mp hcmp
      rcases nmerge_mem hx with ⟨u, hu, he⟩ | ⟨u, hu, he⟩
      · rcases List.mem_cons.mp hu with h | h
        · subst h; exact useq_lt_of_seq_eq rfl he hlt
        · rcases List.pairwise_cons.mp hl with ⟨hul, _⟩
          exact useq_lt_of_seq_eq rfl he (useq_lt_trans hlt (hul u h))
      · exact useq_lt_of_seq_eq rfl he (hur u hu)

/-- The merge loses exactly `repeats` records. -/
lemma nmerge_length : ∀ (l r : List useq),
    (nmerge l r).1.length + (nmerge l r).2 = l.length + r.length := by
  intro l r
  induction l, r using nmerge.induct with
  | case1 r => rw [nmerge_nil_left]; simp
  | case2 l hne => rw [nmerge_nil_right]; simp
  | case3 ul ls ur rs hcmp ih =>
      rw [nmerge_cons_eq hcmp]
      simp only [List.length_cons]
      omega
  | case4 ul ls ur rs hcmp ih =>
      rw [nmerge_cons_lt hcmp]
      simp only [List.length_cons] at *
      omega
  | case5 ul ls ur rs hcmp ih =>
      rw [nmerge_cons_gt hcmp]
      simp only [List.length_cons] at *
      omega

/-- Coalescing moves counts onto the survivor: the total is conserved. -/
lemma nmerge_countSum : ∀ (l r : List useq),
    countSum (nmerge l r).1 = countSum l + countSum r := by
  intro l r
  induction l, r using nmerge.induct with
  | case1 r => rw [nmerge_nil_left]; simp [countSum]
  | case2 l hne => rw [nmerge_nil_right]; simp [countSum]
  | case3 ul ls ur rs hcmp ih =>
      rw [nmerge_cons_eq hcmp]
      simp only [countSum, List.map_cons, List.sum_cons] at *
      omega
  | case4 ul ls ur rs hcmp ih =>
      rw [nmerge_cons_lt hcmp]
      simp only [countSum, List.map_cons, List.sum_cons] at *
      omega
  | case5 ul ls ur rs hcmp ih =>
      rw [nmerge_cons_gt hcmp]
      simp only [countSum, List.map_cons, List.sum_cons] at *
      omega

lemma countSum_append (l r : List useq) :
    countSum (l ++ r) = countSum l + countSum r := by
  simp [countSum]

lemma nukesort_sorted : ∀ (l : List useq),
    List.Pairwise useq_lt (nukesort l).1 := by
  intro l
  induction l using nukesort.induct with
  | case1 l h =>
      rw [nukesort, dif_pos h]
      match l, h with
      | [], _ => exact List.Pairwise.nil
      | [x], _ => exact List.pairwise_singleton _ _
  | case2 l h ih1 ih2 =>
      rw [nukesort, dif_neg h]
      exact nmerge_sorted ih1 ih2

lemma nukesort_length : ∀ (l : List useq),
    (nukesort l).1.length + (nukesort l).2 = l.length := by
  intro l
  induction l using nukesort.induct with
  | case1 l h => rw [nukesort, dif_pos h]; simp
  | case2 l h ih1 ih2 =>
      rw [nukesort, dif_neg h]
      simp only []
      have hm := nmerge_length (nukesort (l.take (l.length / 2))).1
        (nukesort (l.drop (l.length / 2))).1
      have ht : (l.take (l.length / 2)).length = l.length / 2 := by
        simp; omega
      have hd : (l.drop (l.length / 2)).length = l.length - l.length / 2 := by
        simp
      omega

lemma nukesort_countSum : ∀ (l : List useq),
    countSum (nukesort l).1 = countSum l := by
  intro l
  induction l using nukesort.induct with
  | case1 l h => rw [nukesort, dif_pos h]
  | case2 l h ih1 ih2 =>
      rw [nukesort, dif_neg h]
      simp only []
      rw [nmerge_countSum, ih1, ih2, ← countSum_append,
        List.take_append_drop]

/-- C2.  `seqsort` over a buffer of `numels` records returns
`numels - repeats` where `repeats` is the number of coalesced
duplicates; the surviving records sit at the front of the buffer,
strictly sorted by (length, lexicographic byte order), with pairwise
distinct sequences; the trailing `repeats` slots are NULL; and the
total of the `count` fields is conserved. -/
theorem seqsort_correct (data : List useq) :
    (seqsort data).2 = data.length - (nukesort data).2 ∧
    (seqsort data).2 = (nukesort data).1.length ∧
    (seqsort data).1 =
      ((nukesort data).1.map some) ++ List.replicate ((nukesort data).2) none ∧
    (seqsort data).1.length = data.length ∧
    List.Pairwise useq_lt (nukesort data).1 ∧
    List.Pairwise (fun a b : useq => a.seq ≠ b.seq) (nukesort data).1 ∧
    countSum (nukesort data).1 = countSum data := by
  have hlen := nukesort_length data
  have hsort := nukesort_sorted data
  refine ⟨rfl, by simp only [seqsort]; omega, rfl, ?_, hsort, ?_, nukesort_countSum data⟩
  · simp only [seqsort, List.length_append, List.length_map,
      List.length_replicate]
    omega
  · exact hsort.imp (fun h => useq_lt_seq_ne h)

/-! ## The multithreading plan (`plan_mt`, lines 289-416) -/

/-- Block boundaries of the query blocks (lines 343-347):
`bounds[i] = Q*i + min(i, R)` with `Q = nitems / ntries` and
`R = nitems % ntries`. -/
def bounds (M N : Nat) (i : Nat) : Nat := (M / N) * i + min i (M % N)

/-- Trie-count selection in `starcode` (lines 60-65): `ntries` is
`3*thrmax + (thrmax % 2 == 0)`, but both `ntries` and `thrmax` fall
back to 1 when there are fewer unique sequences than tries.  Returns
the pair `(ntries, thrmax)`. -/
def compute_ntries (thrmax nitems : Nat) : Nat × Nat :=
  let nt := 3 * thrmax + (if thrmax % 2 = 0 then 1 else 0)
  if nitems < nt then (1, 1) else (nt, thrmax)

/-- One `mtjob_t`, keeping the fields that determine the schedule.
`queryid` and `trieid` are the one-based block and trie indices stored
by `plan_mt` (lines 399-401). -/
structure mtjob where
  start   : Nat
  jend    : Int
  tau     : Nat
  build   : Bool
  queryid : Nat
  trieid  : Nat
deriving DecidableEq, Repr

/-- One `mttrie_t`: its job count and job list. -/
structure mttrie where
  njobs : Nat
  jobs  : List mtjob
deriving DecidableEq, Repr

/-- The `j`-th job of trie `i` (lines 380-402): it targets block
`idx = (i+j) % ntries`, with range `[bounds[idx], bounds[idx+1]-1]`,
and only the `j = 0` job builds. -/
def planJob (tau ntries M i j : Nat) : mtjob :=
  let idx := (i + j) % ntries
  { start := bounds M ntries idx
    jend := (bounds M ntries (idx + 1) : Int) - 1
    tau := tau
    build := j == 0
    queryid := idx + 1
    trieid := i + 1 }

/-- `plan_mt` (lines 356-403): trie `i` receives `(ntries+1)/2` jobs. -/
def plan_mt (tau ntries M : Nat) : List mttrie :=
  (List.range ntries).map (fun i =>
    { njobs := (ntries + 1) / 2
      jobs := (List.range ((ntries + 1) / 2)).map (planJob tau ntries M i) })

/-- Access the `k`-th job of the `t`-th trie of a plan. -/
def jobAt (ts : List mttrie) (t k : Nat) : mtjob :=
  (ts.getD t { njobs := 0, jobs := [] }).jobs.getD k
    { start := 0, jend := 0, tau := 0, build := false, queryid := 0, trieid := 0 }

/-- A job pairs the trie built from block `x` with query block `y`,
in either orientation (block indices are stored one-based). -/
def coverPred (x y : Nat) (jb : mtjob) : Bool :=
  ((jb.trieid == x + 1) && (jb.queryid == y + 1)) ||
    ((jb.trieid == y + 1) && (jb.queryid == x + 1))

/-- Number of jobs of the plan that pair the trie built from block `x`
with query block `y`, in either orientation. -/
def coverCount (ts : List mttrie) (x y : Nat) : Nat :=
  (ts.flatMap (fun t => t.jobs)).countP (coverPred x y)

lemma getD_map_range {α : Type} (f : Nat → α) {n t : Nat} (d : α)
    (h : t < n) : ((List.range n).map f).getD t d = f t := by
  rw [List.getD_eq_getElem?_getD, List.getElem?_map, List.getElem?_range h]
  rfl

lemma jobAt_plan_mt {tau N M t k : Nat} (ht : t < N) (hk : k < (N + 1) / 2) :
    jobAt (plan_mt tau N M) t k =
      { start := bounds M N ((t + k) % N)
        jend := (bounds M N ((t + k) % N + 1) : Int) - 1
        tau := tau
        build := k == 0
        queryid := (t + k) % N + 1
        trieid := t + 1 } := by
  unfold jobAt plan_mt
  rw [getD_map_range _ _ ht]
  simp only []
  rw [getD_map_range _ _ hk]
  rfl

lemma mod_add_eq_iff {N i b : Nat} (hN : 0 < N) (hi : i < N) (hb : b < N) :
    ∀ j, j < N → ((i + j) % N = b ↔ j = (b + N - i) % N) := by
  have hveq : (i + (b + N - i) % N) % N = b := by
    have h1 : i + (b + N - i) % N ≡ i + (b + N - i) [MOD N] :=
      Nat.ModEq.add_left i (Nat.mod_modEq (b + N - i) N)
    have h2 : i + (b + N - i) = b + N := by omega
    calc (i + (b + N - i) % N) % N
        = (i + (b + N - i)) % N := h1
      _ = (b + N) % N := by rw [h2]
      _ = b % N := Nat.add_mod_right b N
      _ = b := Nat.mod_eq_of_lt hb
  intro j hj
  constructor
  · intro hjb
    have hmod : i + j ≡ i + ((b + N - i) % N) [MOD N] := hjb.trans hveq.symm
    have := Nat.ModEq.add_left_cancel' i hmod
    have hv : (b + N - i) % N < N := Nat.mod_lt _ hN
    rwa [Nat.ModEq, Nat.mod_eq_of_lt hj, Nat.mod_eq_of_lt hv] at this
  · intro h; rw [h]; exact hveq

lemma countP_range_single {p : Nat → Bool} {m v : Nat}
    (h : ∀ j, j < m → (p j = true ↔ j = v)) :
    (List.range m).countP p = if v < m then 1 else 0 := by
  induction m with
  | zero => simp
  | succ m ih =>
      rw [List.range_succ, List.countP_append]
      have hm := ih (fun j hj => h j (Nat.lt_succ_of_lt hj))
      by_cases hv : v = m
      · subst hv
        have : p v = true := (h v (Nat.lt_succ_self v)).mpr rfl
        simp [this, hm]
      · by_cases hvm : v < m
        · have hpm : p m = false := by
            cases hpm : p m
            · rfl
            · exact absurd (((h m (Nat.lt_succ_self m)).mp hpm)) (fun he => hv he.symm)
          simp [hpm, hm, hvm, Nat.lt_succ_of_lt hvm]
        · have hpm : p m = false := by
            cases hpm : p m
            · rfl
            · exact absurd (((h m (Nat.lt_succ_self m)).mp hpm)) (fun he => hv he.symm)
          have : ¬ v < m + 1 := by omega
          simp [hpm, hm, hvm, this]

lemma sum_map_range_zero {g : Nat → Nat} : ∀ (N : Nat),
    (∀ i, i < N → g i = 0) → ((List.range N).map g).sum = 0 := by
  intro N
  induction N with
  | zero => intro _; simp
  | succ n ih =>
      intro h
      rw [List.range_succ, List.map_append, List.sum_append]
      rw [ih (fun i hi => h i (Nat.lt_succ_of_lt hi))]
      simp [h n (Nat.lt_succ_self n)]

lemma sum_map_range_one {g : Nat → Nat} : ∀ (N : Nat) {a : Nat}, a < N →
    (∀ i, i < N → i ≠ a → g i = 0) → ((List.range N).map g).sum = g a := by
  intro N
  induction N with
  | zero => intro a ha; omega
  | succ n ih =>
      intro a ha h
      rw [List.range_succ, List.map_append, List.sum_append]
      by_cases han : a = n
      · subst han
        rw [sum_map_range_zero a (fun i hi => h i (Nat.lt_succ_of_lt hi) (by omega))]
        simp
      · have ha' : a < n := by omega
        rw [ih ha' (fun i hi hne => h i (Nat.lt_succ_of_lt hi) hne)]
        simp [h n (Nat.lt_succ_self n) (fun he => han he.symm)]

lemma sum_map_range_two {g : Nat → Nat} : ∀ (N : Nat) {a b : Nat},
    a < N → b < N → a ≠ b → (∀ i, i < N → i ≠ a → i ≠ b → g i = 0) →
    ((List.range N).map g).sum = g a + g b := by
  intro N
  induction N with
  | zero => intro a b ha; omega
  | succ n ih =>
      intro a b ha hb hab h
      rw [List.range_succ, List.map_append, List.sum_append]
      by_cases han : a = n
      · subst han
        rw [sum_map_range_one a (show b < a by omega)
          (fun i hi hne => h i (Nat.lt_succ_of_lt hi) (by omega) hne)]
        simp [Nat.add_comm]
      · by_cases hbn : b = n
        · subst hbn
          rw [sum_map_range_one b (show a < b by omega)
            (fun i hi hne => h i (Nat.lt_succ_of_lt hi) hne (by omega))]
          simp
        · have ha' : a < n := by omega
          have hb' : b < n := by omega
          rw [ih ha' hb' hab (fun i hi h1 h2 => h i (Nat.lt_succ_of_lt hi) h1 h2)]
          simp [h n (Nat.lt_succ_self n) (fun he => han he.symm)
            (fun he => hbn he.symm)]

/-- Counting the jobs of one trie row that cover the ordered pair
`(x, y)` of distinct blocks. -/
lemma row_coverCount {tau N M x y : Nat} (hN : 0 < N) (hx : x < N)
    (hy : y < N) (hxy : x ≠ y) (i : Nat) (hi : i < N) :
    List.countP (coverPred x y)
        ((List.range ((N + 1) / 2)).map (planJob tau N M i)) =
      if i = x then (if (y + N - x) % N < (N + 1) / 2 then 1 else 0)
      else if i = y then (if (x + N - y) % N < (N + 1) / 2 then 1 else 0)
      else 0 := by
  rw [List.countP_map]
  have hjN : (N + 1) / 2 ≤ N := by omega
  by_cases hix : i = x
  · subst hix
    rw [if_pos rfl]
    rw [countP_range_single (v := (y + N - i) % N) ?_]
    intro j hj
    have hjlt : j < N := by omega
    simp only [Function.comp, coverPred, planJob, Bool.or_eq_true,
      Bool.and_eq_true, beq_iff_eq]
    rw [← mod_add_eq_iff hN hi hy j hjlt]
    constructor
    · rintro (⟨_, h2⟩ | ⟨h1, _⟩)
      · omega
      · exact absurd (by omega : i = y) hxy
    · intro h; exact Or.inl ⟨by trivial, by omega⟩
  · by_cases hiy : i = y
    · subst hiy
      rw [if_neg hix, if_pos rfl]
      rw [countP_range_single (v := (x + N - i) % N) ?_]
      intro j hj
      have hjlt : j < N := by omega
      simp only [Function.comp, coverPred, planJob, Bool.or_eq_true,
        Bool.and_eq_true, beq_iff_eq]
      rw [← mod_add_eq_iff hN hi hx j hjlt]
      constructor
      · rintro (⟨h1, _⟩ | ⟨_, h2⟩)
        · exact absurd (by omega : x = i) hxy
        · omega
      · intro h; exact Or.inr ⟨by trivial, by omega⟩
    · rw [if_neg hix, if_neg hiy]
      rw [List.countP_eq_zero]
      intro j hj
      simp only [Function.comp, coverPred, planJob, Bool.or_eq_true,
        Bool.and_eq_true, beq_iff_eq]
      rintro (⟨h1, _⟩ | ⟨h1, _⟩)
      · exact hix (by omega)
      · exact hiy (by omega)

/-- The schedule covers each unordered pair of distinct blocks exactly
once: exactly one of the two cyclic distances is below `(N+1)/2` when
`N` is odd. -/
lemma coverCount_plan_mt {tau N M x y : Nat} (hN : Odd N) (hx : x < N)
    (hy : y < N) (hxy : x ≠ y) :
    coverCount (plan_mt tau N M) x y = 1 := by
  obtain ⟨s, hs⟩ := hN
  have hN0 : 0 < N := by omega
  unfold coverCount plan_mt
  rw [List.flatMap_map]
  simp only []
  rw [List.countP_flatMap]
  have hrw : ∀ i, i < N →
      (List.countP (coverPred x y) ∘ fun i =>
        (List.range ((N + 1) / 2)).map (planJob tau N M i)) i =
      (if i = x then (if (y + N - x) % N < (N + 1) / 2 then 1 else 0)
       else if i = y then (if (x + N - y) % N < (N + 1) / 2 then 1 else 0)
       else 0) := by
    intro i hi
    exact row_coverCount hN0 hx hy hxy i hi
  have hzero : ∀ i, i < N → i ≠ x → i ≠ y →
      (List.countP (coverPred x y) ∘ fun i =>
        (List.range ((N + 1) / 2)).map (planJob tau N M i)) i = 0 := by
    intro i hi h1 h2
    rw [hrw i hi, if_neg h1, if_neg h2]
  have hyx : ¬ (y = x) := fun he => hxy he.symm
  have ex := hrw x hx
  have ey := hrw y hy
  rw [if_pos (rfl : x = x)] at ex
  rw [if_neg hyx, if_pos (rfl : y = y)] at ey
  rw [sum_map_range_two N hx hy hxy hzero, ex, ey]
  -- exactly one of the two cyclic distances fits in a row of jobs
  have hd1 : (y + N - x) % N + (x + N - y) % N = N := by
    rcases Nat.lt_or_ge x y with hlt | hge
    · have e1 : y + N - x = (y - x) + N := by omega
      have e2 : (y + N - x) % N = y - x := by
        rw [e1, Nat.add_mod_right, Nat.mod_eq_of_lt (by omega)]
      have e3 : (x + N - y) % N = x + N - y := Nat.mod_eq_of_lt (by omega)
      omega
    · have hgt : y < x := by omega
      have e1 : x + N - y = (x - y) + N := by omega
      have e2 : (x + N - y) % N = x - y := by
        rw [e1, Nat.add_mod_right, Nat.mod_eq_of_lt (by omega)]
      have e3 : (y + N - x) % N = y + N - x := Nat.mod_eq_of_lt (by omega)
      omega
  have hd1pos : 0 < (y + N - x) % N := by
    rcases Nat.eq_zero_or_pos ((y + N - x) % N) with h0 | h
    · exfalso
      have := hd1
      rw [h0] at this
      have : (x + N - y) % N = N := by omega
      have hlt : (x + N - y) % N < N := Nat.mod_lt _ hN0
      omega
    · exact h
  by_cases hcase : (y + N - x) % N < (N + 1) / 2
  · rw [if_pos hcase, if_neg (show ¬ (x + N - y) % N < (N + 1) / 2 by omega)]
  · rw [if_neg hcase, if_pos (show (x + N - y) % N < (N + 1) / 2 by omega)]

/-- C1.  For the plan built by `plan_mt` with an odd number of tries
`N`: the `j`-th job of trie `i` has query range equal to block
`(i+j) mod N` (its `start`/`end` fields are the bounds of that block,
and its stored `queryid` is that block index plus one), job `j = 0` is
the unique build job of trie `i` and it queries trie `i`'s own block
(covering within-block pairs); and for every ordered pair of distinct
blocks `(i, j)` exactly one job in the whole plan pairs the trie built
from block `i` with query block `j` or the trie built from block `j`
with query block `i` — never both. -/
theorem plan_mt_schedule (tau N M i j : Nat) (hN : Odd N) (hi : i < N)
    (hj : j < N) (hij : i ≠ j) :
    (∀ t k, t < N → k < (N + 1) / 2 →
        jobAt (plan_mt tau N M) t k =
          { start := bounds M N ((t + k) % N)
            jend := (bounds M N ((t + k) % N + 1) : Int) - 1
            tau := tau
            build := k == 0
            queryid := (t + k) % N + 1
            trieid := t + 1 }) ∧
    (∀ t, t < N →
        (jobAt (plan_mt tau N M) t 0).build = true ∧
        (jobAt (plan_mt tau N M) t 0).queryid = t + 1 ∧
        (jobAt (plan_mt tau N M) t 0).start = bounds M N t ∧
        (jobAt (plan_mt tau N M) t 0).jend = (bounds M N (t + 1) : Int) - 1) ∧
    coverCount (plan_mt tau N M) i j = 1 := by
  have hN0 : 0 < N := by
    obtain ⟨s, hs⟩ := hN; omega
  refine ⟨fun t k ht hk => jobAt_plan_mt ht hk, ?_, ?_⟩
  · intro t ht
    have h0 : 0 < (N + 1) / 2 := by omega
    have := @jobAt_plan_mt tau _ M _ _ ht h0
    rw [this]
    have ht0 : (t + 0) % N = t := by
      rw [Nat.add_zero, Nat.mod_eq_of_lt ht]
    rw [ht0]
    exact ⟨rfl, rfl, rfl, rfl⟩
  · exact coverCount_plan_mt hN hi hj hij

/-- Witness for C1: the claimed properties hold concretely for the
plan with 5 tries over 12 sequences, blocks 0 and 3. -/
theorem plan_mt_schedule_witness :
    Odd 5 ∧
    ((∀ t k, t < 5 → k < (5 + 1) / 2 →
        jobAt (plan_mt 2 5 12) t k =
          { start := bounds 12 5 ((t + k) % 5)
            jend := (bounds 12 5 ((t + k) % 5 + 1) : Int) - 1
            tau := 2
            build := k == 0
            queryid := (t + k) % 5 + 1
            trieid := t + 1 }) ∧
    (∀ t, t < 5 →
        (jobAt (plan_mt 2 5 12) t 0).build = true ∧
        (jobAt (plan_mt 2 5 12) t 0).queryid = t + 1 ∧
        (jobAt (plan_mt 2 5 12) t 0).start = bounds 12 5 t ∧
        (jobAt (plan_mt 2 5 12) t 0).jend = (bounds 12 5 (t + 1) : Int) - 1) ∧
    coverCount (plan_mt 2 5 12) 0 3 = 1) :=
  ⟨by decide, plan_mt_schedule 2 5 12 0 3 (by decide) (by decide) (by decide)
    (by decide)⟩

/-- C4 as stated is false: with `M = 5` sequences and `N = 3` tries,
`bounds[2]` computed by `plan_mt` is `Q*2 + min(2, R) = 4`, but the
claimed formula `⌊2*5/3⌋ + min(2, 5 mod 3)` gives `5`. -/
theorem bounds_claim_counterexample :
    bounds 5 3 2 ≠ 2 * 5 / 3 + min 2 (5 % 3) := by decide

/-- C4, amended: the boundaries are `bounds[i] = i*⌊M/N⌋ + min(i, M mod N)`
(the quotient is taken before the multiplication by `i`); they start at
0, end at `M`, are monotone, and cut the `M` sequences into `N`
contiguous ranges whose sizes are `⌊M/N⌋ + 1` for the first `M mod N`
blocks and `⌊M/N⌋` for the rest — near-equal sizes differing by at
most one. -/
theorem bounds_partition (M N : Nat) (hN : Odd N) :
    (∀ i, bounds M N i = i * (M / N) + min i (M % N)) ∧
    bounds M N 0 = 0 ∧
    bounds M N N = M ∧
    (∀ i, i < N → bounds M N (i + 1) - bounds M N i =
        if i < M % N then M / N + 1 else M / N) ∧
    (∀ i, i < N → bounds M N i ≤ bounds M N (i + 1)) := by
  have hN0 : 0 < N := by obtain ⟨s, hs⟩ := hN; omega
  have hdm := Nat.div_add_mod M N
  have hmod : M % N < N := Nat.mod_lt _ hN0
  obtain ⟨q, hq⟩ : ∃ q, M / N = q := ⟨_, rfl⟩
  obtain ⟨r, hr⟩ : ∃ r, M % N = r := ⟨_, rfl⟩
  rw [hq, hr] at hdm
  rw [hr] at hmod
  refine ⟨fun i => by unfold bounds; ring, by unfold bounds; simp, ?_, ?_, ?_⟩
  · unfold bounds
    rw [hq, hr]
    have hm : min N r = r := by omega
    have hc : q * N = N * q := Nat.mul_comm _ _
    rw [hm]
    omega
  · intro i hiN
    unfold bounds
    rw [hq, hr]
    have hexp : q * (i + 1) = q * i + q := by ring
    by_cases hir : i < r
    · rw [if_pos hir]
      have h1 : min i r = i := by omega
      have h2 : min (i + 1) r = i + 1 := by omega
      rw [h1, h2]
      omega
    · rw [if_neg hir]
      have h1 : min i r = r := by omega
      have h2 : min (i + 1) r = r := by omega
      rw [h1, h2]
      omega
  · intro i _
    unfold bounds
    rw [hq, hr]
    have hexp : q * (i + 1) = q * i + q := by ring
    have hm : min i r ≤ min (i + 1) r := by omega
    omega

/-- Witness for C4 (amended): concrete check at `M = 5`, `N = 3`. -/
theorem bounds_partition_witness :
    Odd 3 ∧
    ((∀ i, bounds 5 3 i = i * (5 / 3) + min i (5 % 3)) ∧
    bounds 5 3 0 = 0 ∧
    bounds 5 3 3 = 5 ∧
    (∀ i, i < 3 → bounds 5 3 (i + 1) - bounds 5 3 i =
        if i < 5 % 3 then 5 / 3 + 1 else 5 / 3) ∧
    (∀ i, i < 3 → bounds 5 3 i ≤ bounds 5 3 (i + 1))) :=
  ⟨by decide, bounds_partition 5 3 (by decide)⟩

/-- C9 as stated is false: with thread budget `T = 2` but only 3 unique
sequences, the plan uses `ntries = 1`, not `3*2 + 1 = 7` (lines 62-65
reset both `ntries` and `thrmax` to 1 on small inputs). -/
theorem ntries_claim_counterexample :
    ¬ ((compute_ntries 2 3).1 = 3 * 2 + (if 2 % 2 = 0 then 1 else 0)) := by
  decide

/-- C9, amended: for every thread budget `T ≥ 1`, the number of tries
is `3*T + [T even]` whenever at least that many unique sequences exist;
with fewer unique sequences both the trie count and the thread budget
fall back to 1.  In every case the number of tries is odd. -/
theorem ntries_correct (T nitems : Nat) (hT : 1 ≤ T) :
    ((3 * T + (if T % 2 = 0 then 1 else 0) ≤ nitems →
        (compute_ntries T nitems).1 = 3 * T + (if T % 2 = 0 then 1 else 0))) ∧
    (nitems < 3 * T + (if T % 2 = 0 then 1 else 0) →
        compute_ntries T nitems = (1, 1)) ∧
    Odd (compute_ntries T nitems).1 := by
  unfold compute_ntries
  simp only []
  by_cases h : nitems < 3 * T + (if T % 2 = 0 then 1 else 0)
  · rw [if_pos h]
    refine ⟨fun hc => by omega, fun _ => rfl, ⟨0, by omega⟩⟩
  · rw [if_neg h]
    refine ⟨fun _ => rfl, fun hc => by omega, ?_⟩
    rw [Nat.odd_iff]
    by_cases he : T % 2 = 0
    · rw [if_pos he]; omega
    · rw [if_neg he]; omega

/-- Witness for C9 (amended): thread budget 2 and 10 sequences. -/
theorem ntries_correct_witness :
    1 ≤ 2 ∧
    (((3 * 2 + (if 2 % 2 = 0 then 1 else 0) ≤ 10 →
        (compute_ntries 2 10).1 = 3 * 2 + (if 2 % 2 = 0 then 1 else 0))) ∧
    (10 < 3 * 2 + (if 2 % 2 = 0 then 1 else 0) →
        compute_ntries 2 10 = (1, 1)) ∧
    Odd (compute_ntries 2 10).1) :=
  ⟨by decide, ntries_correct 2 10 (by decide)⟩

/-! ## Auto-tau (`starcode`, lines 69-76) -/

/-- τ resolution in `starcode` (lines 71-76): a negative caller value is
replaced by `8` when the median exceeds 160 and by `2 + median/30`
otherwise; non-negative values pass through. -/
def resolve_tau (tau : Int) (med : Nat) : Int :=
  if tau < 0 then (if 160 < med then 8 else 2 + (med / 30 : Nat)) else tau

/-- C6.  A negative caller τ is set to 8 when the median length exceeds
160 and to `2 + median/30` (integer division) otherwise; in particular
a median length of 30 yields τ = 3. -/
theorem resolve_tau_auto (tau : Int) (med : Nat) (h : tau < 0) :
    resolve_tau tau med =
      (if 160 < med then (8 : Int) else 2 + (med / 30 : Nat)) ∧
    resolve_tau tau 30 = 3 := by
  unfold resolve_tau
  rw [if_pos h, if_pos h]
  refine ⟨rfl, ?_⟩
  norm_num

/-- Witness for C6 at `tau = -1`, median 200. -/
theorem resolve_tau_auto_witness :
    (-1 : Int) < 0 ∧
    (resolve_tau (-1) 200 =
      (if 160 < 200 then (8 : Int) else 2 + ((200 : Nat) / 30 : Nat)) ∧
    resolve_tau (-1) 30 = 3) :=
  ⟨by decide, resolve_tau_auto (-1) 200 (by decide)⟩

/-! ## Padding and median (`pad_useq`, lines 926-981) -/

/-- Maximum sequence length, computed as in lines 934-940. -/
def maxLen (lens : List Nat) : Nat := lens.foldl max 0

/-- Cumulative length histogram as accumulated by the median loop:
`cum cnt t = cnt 1 + ... + cnt t` (bin 0 is never added, the loop
pre-increments the index). -/
def cum (cnt : Nat → Nat) : Nat → Nat
  | 0 => 0
  | t + 1 => cum cnt t + cnt (t + 1)

/-- The do-while median loop of `pad_useq` (lines 971-975):
`*median = 0; do { ccount += count[++(*median)]; } while (ccount < nitems/2)`.
One iteration per call; `fuel` bounds the loop (under the theorem's
hypotheses the C loop stops within the histogram array). -/
def medianGo (cnt : Nat → Nat) (half : Nat) : Nat → Nat → Nat → Nat
  | 0, m, _ => m
  | fuel + 1, m, cc =>
      if cc + cnt (m + 1) < half then
        medianGo cnt half fuel (m + 1) (cc + cnt (m + 1))
      else m + 1

/-- `pad_useq` restricted to what the claim observes: from the multiset
of sequence lengths it returns `(maxlen, median)`. -/
def pad_useq (lens : List Nat) : Nat × Nat :=
  (maxLen lens,
    medianGo (fun v => lens.count v) (lens.length / 2) (maxLen lens) 0 0)

/-- Number of records whose length lies in `[1, L]` (what the median
loop has accumulated after processing bin `L`). -/
def cumCount (lens : List Nat) (L : Nat) : Nat :=
  (lens.filter (fun l => decide (1 ≤ l) && decide (l ≤ L))).length

/-- Number of records of length at most `L` — the quantity named by the
claim (bin 0 included). -/
def claimCount (lens : List Nat) (L : Nat) : Nat :=
  (lens.filter (fun l => decide (l ≤ L))).length

/-- The claim's characterisation of the median: the smallest `L` such
that at least `nitems/2` records have length at most `L`. -/
def IsSpecMedian (lens : List Nat) (m : Nat) : Prop :=
  lens.length / 2 ≤ claimCount lens m ∧
    ∀ t, t < m → claimCount lens t < lens.length / 2

instance (lens : List Nat) (m : Nat) : Decidable (IsSpecMedian lens m) := by
  unfold IsSpecMedian; infer_instance

lemma foldl_max_le_mem : ∀ (l : List Nat) (acc x : Nat), x ∈ l →
    x ≤ l.foldl max acc := by
  intro l
  induction l with
  | nil => intro acc x hx; cases hx
  | cons y ls ih =>
      intro acc x hx
      rcases List.mem_cons.mp hx with h | h
      · subst h
        calc x ≤ max acc x := le_max_right _ _
          _ ≤ List.foldl max (max acc x) ls := by
              clear ih hx
              induction ls generalizing acc x with
              | nil => exact le_refl _
              | cons z zs ih2 =>
                  simp only [List.foldl_cons]
                  calc max acc x ≤ max (max acc x) z := le_max_left _ _
                    _ ≤ _ := ih2 _ _
      · exact ih _ x h

lemma foldl_max_mem_or : ∀ (l : List Nat) (acc : Nat),
    l.foldl max acc = acc ∨ l.foldl max acc ∈ l := by
  intro l
  induction l with
  | nil => intro acc; exact Or.inl rfl
  | cons y ls ih =>
      intro acc
      simp only [List.foldl_cons]
      rcases ih (max acc y) with h | h
      · rw [h]
        rcases Nat.le_total acc y with hle | hle
        · rw [Nat.max_eq_right hle]
          exact Or.inr (List.mem_cons_self _ _)
        · rw [Nat.max_eq_left hle]
          exact Or.inl rfl
      · exact Or.inr (List.mem_cons_of_mem _ h)

lemma cum_add (f g : Nat → Nat) : ∀ t,
    cum (fun v => f v + g v) t = cum f t + cum g t := by
  intro t
  induction t with
  | zero => rfl
  | succ t ih => simp only [cum, ih]; omega

lemma cum_indicator (x : Nat) : ∀ t,
    cum (fun v => if x = v then 1 else 0) t =
      if 1 ≤ x ∧ x ≤ t then 1 else 0 := by
  intro t
  induction t with
  | zero => simp only [cum]; split_ifs <;> omega
  | succ t ih =>
      simp only [cum, ih]
      split_ifs <;> omega

lemma cum_zero : ∀ t, cum (fun _ => 0) t = 0 := by
  intro t
  induction t with
  | zero => rfl
  | succ t ih => simp [cum, ih]

lemma cum_count_eq (lens : List Nat) : ∀ t,
    cum (fun v => lens.count v) t = cumCount lens t := by
  induction lens with
  | nil =>
      intro t
      have h0 : (fun v => List.count v ([] : List Nat)) = fun _ => 0 := by
        funext v; simp
      rw [h0, cum_zero]
      simp [cumCount]
  | cons x ls ih =>
      intro t
      have hc : (fun v => List.count v (x :: ls)) =
          fun v => List.count v ls + (if x = v then 1 else 0) := by
        funext v
        rw [List.count_cons]
        simp [beq_iff_eq]
      rw [hc, cum_add, ih, cum_indicator]
      unfold cumCount
      rw [List.filter_cons]
      by_cases hx : 1 ≤ x ∧ x ≤ t
      · rw [if_pos hx]
        rw [if_pos (show (decide (1 ≤ x) && decide (x ≤ t)) = true by
          simp [hx.1, hx.2])]
        simp
      · rw [if_neg hx]
        rw [if_neg (show ¬ ((decide (1 ≤ x) && decide (x ≤ t)) = true) by
          simp only [Bool.and_eq_true, decide_eq_true_eq]; omega)]
        omega

/-- The do-while loop computes the least `L ≥ 1` whose cumulative bin
count reaches `half`, provided some bin within `fuel` steps does. -/
lemma medianGo_spec (cnt : Nat → Nat) (half : Nat) : ∀ (fuel m cc : Nat),
    cc = cum cnt m →
    (∃ t, m < t ∧ t ≤ m + fuel ∧ half ≤ cum cnt t) →
    m < medianGo cnt half fuel m cc ∧
    medianGo cnt half fuel m cc ≤ m + fuel ∧
    half ≤ cum cnt (medianGo cnt half fuel m cc) ∧
    ∀ t, m < t → t < medianGo cnt half fuel m cc → cum cnt t < half := by
  intro fuel
  induction fuel with
  | zero =>
      intro m cc _ hex
      obtain ⟨t, h1, h2, _⟩ := hex
      omega
  | succ fuel ih =>
      intro m cc hcc hex
      have hcc1 : cc + cnt (m + 1) = cum cnt (m + 1) := by
        rw [hcc]; rfl
      simp only [medianGo]
      by_cases hlt : cc + cnt (m + 1) < half
      · rw [if_pos hlt]
        have hcum1 : cum cnt (m + 1) < half := by omega
        have hex' : ∃ t, m + 1 < t ∧ t ≤ m + 1 + fuel ∧ half ≤ cum cnt t := by
          obtain ⟨t, h1, h2, h3⟩ := hex
          refine ⟨t, ?_, by omega, h3⟩
          rcases Nat.lt_or_ge (m + 1) t with h | h
          · exact h
          · have ht : t = m + 1 := by omega
            rw [ht] at h3
            omega
        obtain ⟨r1, r2, r3, r4⟩ := ih (m + 1) (cc + cnt (m + 1)) hcc1 hex'
        refine ⟨by omega, by omega, r3, ?_⟩
        intro t ht1 ht2
        rcases Nat.lt_or_ge (m + 1) t with h | h
        · exact r4 t h ht2
        · have ht : t = m + 1 := by omega
          rw [ht]
          exact hcum1
      · rw [if_neg hlt]
        exact ⟨Nat.lt_succ_self m, by omega, by omega, fun t ht1 ht2 => by omega⟩

/-- C7 as stated is false: for a single record of length 2 the loop
returns median 1, yet the smallest `L` with at least `⌊1/2⌋ = 0`
records of length at most `L` is `L = 0`. -/
theorem pad_median_counterexample :
    ¬ IsSpecMedian [2] ((pad_useq [2]).2) := by decide

/-- C7, amended: `pad_useq` returns the maximum sequence length, and
(provided every sequence is non-empty, bin 0 being skipped by the
loop) the median output is the smallest `L ≥ 1` such that the number
of records with length in `[1, L]` is at least `⌊nitems/2⌋`. -/
theorem pad_useq_correct (lens : List Nat) (hne : lens ≠ [])
    (hpos : ∀ l ∈ lens, 1 ≤ l) :
    (∀ l ∈ lens, l ≤ (pad_useq lens).1) ∧
    (pad_useq lens).1 ∈ lens ∧
    1 ≤ (pad_useq lens).2 ∧
    lens.length / 2 ≤ cumCount lens ((pad_useq lens).2) ∧
    (∀ t, 1 ≤ t → t < (pad_useq lens).2 → cumCount lens t < lens.length / 2) := by
  obtain ⟨x0, hx0⟩ := List.exists_mem_of_ne_nil lens hne
  have hmax_le : ∀ l ∈ lens, l ≤ maxLen lens :=
    fun l hl => foldl_max_le_mem lens 0 l hl
  have hmax_pos : 1 ≤ maxLen lens :=
    le_trans (hpos x0 hx0) (hmax_le x0 hx0)
  have hmax_mem : maxLen lens ∈ lens := by
    rcases foldl_max_mem_or lens 0 with h | h
    · exfalso
      have : maxLen lens = 0 := h
      omega
    · exact h
  have hfull : cumCount lens (maxLen lens) = lens.length := by
    unfold cumCount
    rw [List.filter_eq_self.mpr ?_]
    intro l hl
    simp only [Bool.and_eq_true, decide_eq_true_eq]
    exact ⟨hpos l hl, hmax_le l hl⟩
  have hspec := medianGo_spec (fun v => lens.count v) (lens.length / 2)
    (maxLen lens) 0 0 rfl ?_
  · obtain ⟨r1, r2, r3, r4⟩ := hspec
    refine ⟨hmax_le, hmax_mem, r1, ?_, ?_⟩
    · rw [← cum_count_eq]
      exact r3
    · intro t ht1 ht2
      rw [← cum_count_eq]
      exact r4 t (by omega) ht2
  · refine ⟨maxLen lens, by omega, by omega, ?_⟩
    rw [cum_count_eq, hfull]
    exact Nat.div_le_self _ _

/-- Witness for C7 (amended) at lengths `[1, 2, 3]`. -/
theorem pad_useq_correct_witness :
    ([1, 2, 3] : List Nat) ≠ [] ∧
    ((∀ l ∈ ([1, 2, 3] : List Nat), l ≤ (pad_useq [1, 2, 3]).1) ∧
    (pad_useq [1, 2, 3]).1 ∈ ([1, 2, 3] : List Nat) ∧
    1 ≤ (pad_useq [1, 2, 3]).2 ∧
    ([1, 2, 3] : List Nat).length / 2 ≤
      cumCount [1, 2, 3] ((pad_useq [1, 2, 3]).2) ∧
    (∀ t, 1 ≤ t → t < (pad_useq [1, 2, 3]).2 →
      cumCount [1, 2, 3] t < ([1, 2, 3] : List Nat).length / 2)) :=
  ⟨by decide, pad_useq_correct [1, 2, 3] (by decide) (by decide)⟩

/-! ## Common-prefix hints of the worker (`do_query`, lines 197-213) -/

/-- The unguarded loops
`while (query->seq[k] == other->seq[k]) k++;` compute the index of the
first position where the two byte strings differ; running off the list
end models reaching the terminator with all previous bytes equal. -/
def commonPrefixLen : List Char → List Char → Nat
  | a :: as, b :: bs => if a = b then commonPrefixLen as bs + 1 else 0
  | _, _ => 0

lemma commonPrefixLen_lt : ∀ {a b : List Char}, a.length = b.length →
    a ≠ b → commonPrefixLen a b < a.length := by
  intro a
  induction a with
  | nil =>
      intro b hlen hne
      exact absurd (List.length_eq_zero.mp hlen.symm).symm hne
  | cons x as ih =>
      intro b hlen hne
      cases b with
      | nil => simp at hlen
      | cons y bs =>
          simp only [commonPrefixLen, List.length_cons]
          by_cases hxy : x = y
          · subst hxy
            rw [if_pos rfl]
            have hne' : as ≠ bs := fun hc => hne (by rw [hc])
            have := ih (by simpa using hlen) hne'
            omega
          · rw [if_neg hxy]
            omega

/-- C8.  In a block whose padded sequences all share length `L` and are
pairwise distinct, the `trail` loop (against the following record) and
the `start` loop (against the previously searched query, also a block
record) both stop strictly before index `L`: they never read the
terminator or beyond. -/
theorem do_query_prefix_safe (block : List useq) (L : Nat)
    (hlen : ∀ u ∈ block, u.seq.length = L)
    (hdist : List.Pairwise (fun a b : useq => a.seq ≠ b.seq) block) :
    (∀ i (h : i + 1 < block.length),
        commonPrefixLen (block.get ⟨i, by omega⟩).seq
          (block.get ⟨i + 1, h⟩).seq < L) ∧
    (∀ i j (hi : i < block.length) (hj : j < block.length), i ≠ j →
        commonPrefixLen (block.get ⟨i, hi⟩).seq
          (block.get ⟨j, hj⟩).seq < L) := by
  have hget : ∀ i j (hi : i < block.length) (hj : j < block.length), i ≠ j →
      (block.get ⟨i, hi⟩).seq ≠ (block.get ⟨j, hj⟩).seq := by
    intro i j hi hj hij
    rcases Nat.lt_or_ge i j with h | h
    · exact (List.pairwise_iff_get.mp hdist) ⟨i, hi⟩ ⟨j, hj⟩ h
    · have hji : j < i := by omega
      exact fun hc =>
        (List.pairwise_iff_get.mp hdist) ⟨j, hj⟩ ⟨i, hi⟩ hji hc.symm
  have hcore : ∀ i j (hi : i < block.length) (hj : j < block.length), i ≠ j →
      commonPrefixLen (block.get ⟨i, hi⟩).seq (block.get ⟨j, hj⟩).seq < L := by
    intro i j hi hj hij
    have h1 := hlen _ (List.get_mem block _ hi)
    have h2 := hlen _ (List.get_mem block _ hj)
    have := commonPrefixLen_lt (a := (block.get ⟨i, hi⟩).seq)
      (b := (block.get ⟨j, hj⟩).seq) (by rw [h1, h2]) (hget i j hi hj hij)
    omega
  exact ⟨fun i h => hcore i (i + 1) (by omega) h (by omega), hcore⟩

/-- Witness for C8 on the two-record block `["ab", "ac"]` of length 2. -/
theorem do_query_prefix_safe_witness :
    (∀ u ∈ [useq.mk ['a', 'b'] 1, useq.mk ['a', 'c'] 1], u.seq.length = 2) ∧
    List.Pairwise (fun a b : useq => a.seq ≠ b.seq)
      [useq.mk ['a', 'b'] 1, useq.mk ['a', 'c'] 1] ∧
    ((∀ i (h : i + 1 <
        ([useq.mk ['a', 'b'] 1, useq.mk ['a', 'c'] 1] : List useq).length),
        commonPrefixLen
          (([useq.mk ['a', 'b'] 1, useq.mk ['a', 'c'] 1] : List useq).get
            ⟨i, by omega⟩).seq
          (([useq.mk ['a', 'b'] 1, useq.mk ['a', 'c'] 1] : List useq).get
            ⟨i + 1, h⟩).seq < 2) ∧
    (∀ i j (hi : i <
        ([useq.mk ['a', 'b'] 1, useq.mk ['a', 'c'] 1] : List useq).length)
        (hj : j <
        ([useq.mk ['a', 'b'] 1, useq.mk ['a', 'c'] 1] : List useq).length),
        i ≠ j →
        commonPrefixLen
          (([useq.mk ['a', 'b'] 1, useq.mk ['a', 'c'] 1] : List useq).get
            ⟨i, hi⟩).seq
          (([useq.mk ['a', 'b'] 1, useq.mk ['a', 'c'] 1] : List useq).get
            ⟨j, hj⟩).seq < 2)) :=
  ⟨by decide, by decide,
    do_query_prefix_safe [useq.mk ['a', 'b'] 1, useq.mk ['a', 'c'] 1] 2
      (by decide) (by decide)⟩

/-! ## The k-mer lookup filter (lines 1012-1163) -/

/-- Modelled from the spec: the constant `MAX_K_FOR_LOOKUP` lives in
`starcode-private.h`, which is not part of the provided sources; the
spec calls it `MAX_K` and the released header sets it to 14.  None of
the claims depends on its exact value. -/
def MAX_K_FOR_LOOKUP : Nat := 14

/-- A lookup filter (`lookup_t`): aligned sequence length (`slen`,
set to `maxlen` by `new_lookup`), number of k-mers, k-mer lengths
(C `int`s, hence `Int`), and one bitmap per k-mer, modelled as its
membership function. -/
structure lookup where
  slen  : Nat
  kmers : Nat
  klen  : List Int
  tbl   : Nat → Nat → Bool

/-- `new_lookup` (lines 1012-1058): `k = slen/(tau+1)`,
`rem = tau - slen%(tau+1)`; if `k > MAX_K` every k-mer has length
`MAX_K`, otherwise `klen[i] = k - (rem-- > 0)`, i.e. the first `rem`
k-mers have length `k-1` and the rest length `k`.  The bitmaps start
all-zero, and `lut->slen` is set to `maxlen`. -/
def new_lookup (slen maxlen tau : Nat) : lookup :=
  let k : Nat := slen / (tau + 1)
  let rem : Nat := tau - slen % (tau + 1)
  { slen := maxlen
    kmers := tau + 1
    klen :=
      if MAX_K_FOR_LOOKUP < k then
        List.replicate (tau + 1) (MAX_K_FOR_LOOKUP : Int)
      else
        (List.range (tau + 1)).map
          (fun i => (k : Int) - (if i < rem then 1 else 0))
    tbl := fun _ _ => false }

/-- `seq2id` inner loop (lines 1142-1163) with the accumulated code:
reads `k` characters, returns `-1` at the first character outside the
DNA alphabet and `-2` if the string ends first. -/
def charCode (c : Char) : Option Nat :=
  if c = 'A' ∨ c = 'a' ∨ c = ' ' then some 0
  else if c = 'C' ∨ c = 'c' then some 1
  else if c = 'G' ∨ c = 'g' then some 2
  else if c = 'T' ∨ c = 't' then some 3
  else none

def seq2idGo : List Char → Nat → Nat → Int
  | _, 0, acc => Int.ofNat acc
  | [], _ + 1, _ => -2
  | c :: cs, k + 1, acc =>
      match charCode c with
      | none => -1
      | some v => seq2idGo cs k (acc * 4 + v)

/-- `seq2id(seq, k)`: base-4 code of the next `k` characters
(`A|a|space = 0, C|c = 1, G|g = 2, T|t = 3`), `-1` on an invalid
character such as `N`, `-2` on the terminator. -/
def seq2id (s : List Char) (k : Nat) : Int := seq2idGo s k 0

/-- Trie-aligned offset of k-mer `i`: the insertion loop starts at
`offset = lut->slen` and subtracts `klen[j]` for `j = kmers-1 … i`. -/
def kmerOff (lt : lookup) (i : Nat) : Int :=
  (lt.slen : Int) - (lt.klen.drop i).sum

/-- `lut_insert` loop (lines 1120-1139), processing k-mer indices from
`kmers-1` down to `0`: sets the bit `seq2id(seq+offset, klen[i])` of
bitmap `i` when the code is non-negative, returns 1 immediately when
the code is `-2`, and skips the k-mer when it is `-1`. -/
def lut_insert_go (q : List Char) (klen : List Int) :
    (Nat → Nat → Bool) → Nat → Int → ((Nat → Nat → Bool) × Int)
  | tbl, 0, _ => (tbl, 0)
  | tbl, i + 1, off =>
      let k := klen.getD i 0
      let off2 := off - k
      let s := seq2id (q.drop off2.toNat) k.toNat
      if 0 ≤ s then
        lut_insert_go q klen
          (fun x y => if x = i ∧ y = s.toNat then true else tbl x y) i off2
      else if s = -2 then (tbl, 1)
      else lut_insert_go q klen tbl i off2

def lut_insert (lt : lookup) (q : List Char) : lookup × Int :=
  let r := lut_insert_go q lt.klen lt.tbl lt.kmers (lt.slen : Int)
  ({ lt with tbl := r.1 }, r.2)

/-- Offsets probed by `lut_search` for a window of half-width `w`:
`j = -w, …, w` in increasing order. -/
def winList (w : Nat) : List Int :=
  (List.range (2 * w + 1)).map (fun (t : Nat) => (t : Int) - (w : Int))

/-- Inner window loop of `lut_search` (lines 1104-1113): returns 1 on
the first set bit, -1 on a `-2` code (string end), 0 when the window
is exhausted. -/
def searchWin (tbl : Nat → Nat → Bool) (i : Nat) (q : List Char)
    (off : Int) (k : Nat) : List Int → Int
  | [] => 0
  | j :: js =>
      let s := seq2id (q.drop (off + j).toNat) k
      if s = -2 then -1
      else if s = -1 then searchWin tbl i q off k js
      else if tbl i s.toNat then 1
      else searchWin tbl i q off k js

/-- `lut_search` outer loop (lines 1074-1117) over k-mer indices from
`kmers-1` down to `0`. -/
def lut_search_go (lt : lookup) (q : List Char) : Nat → Int → Int
  | 0, _ => 0
  | i + 1, off =>
      let k := lt.klen.getD i 0
      let off2 := off - k
      let r := searchWin lt.tbl i q off2 k.toNat (winList (lt.kmers - 1 - i))
      if r = 0 then lut_search_go lt q i off2 else r

def lut_search (lt : lookup) (q : List Char) : Int :=
  lut_search_go lt q lt.kmers (lt.slen : Int)

/-- C5 as stated is false: for `slen = 4`, `τ = 1` the code computes
`k = 2`, `rem = 1`, so `klen[0] = 1`, not
`min(MAX_K, ⌊4/2⌋) = 2` — and the earlier k-mer is shorter than the
later one, not at least as long. -/
theorem new_lookup_claim_counterexample :
    ¬ ((new_lookup 4 4 1).klen.getD 0 0 =
        min (MAX_K_FOR_LOOKUP : Int) ((4 / (1 + 1) : Nat) : Int) ∧
      ∀ i j, i ≤ j → j ≤ 1 →
        (new_lookup 4 4 1).klen.getD j 0 ≤ (new_lookup 4 4 1).klen.getD i 0) := by
  intro ⟨h1, _⟩
  revert h1
  decide

/-- C5, amended: the filter has exactly `τ+1` k-mers (and its `slen`
field holds `maxlen`); when `⌊slen/(τ+1)⌋ > MAX_K` every k-mer has
length `MAX_K`, and otherwise `klen[i] = k - 1` for the first
`τ - (slen mod (τ+1))` indices and `k` for the rest — the remainder is
distributed toward the *later* indices, so the k-mer lengths are
nondecreasing (earlier k-mers at most as long as later ones). -/
theorem new_lookup_klen (slen maxlen tau : Nat) :
    (new_lookup slen maxlen tau).kmers = tau + 1 ∧
    (new_lookup slen maxlen tau).slen = maxlen ∧
    (new_lookup slen maxlen tau).klen.length = tau + 1 ∧
    (∀ i, i ≤ tau →
      (new_lookup slen maxlen tau).klen.getD i 0 =
        if MAX_K_FOR_LOOKUP < slen / (tau + 1) then (MAX_K_FOR_LOOKUP : Int)
        else ((slen / (tau + 1) : Nat) : Int) -
          (if i < tau - slen % (tau + 1) then 1 else 0)) ∧
    List.Chain' (fun x y : Int => x ≤ y) (new_lookup slen maxlen tau).klen := by
  have hrep : ∀ (n : Nat) (x : Int),
      List.Chain' (fun a b : Int => a ≤ b) (List.replicate n x) := by
    intro n x
    induction n with
    | zero => simp
    | succ m ih =>
        rw [List.replicate_succ, List.chain'_cons']
        refine ⟨?_, ih⟩
        intro b hb
        cases m with
        | zero => simp at hb
        | succ m2 =>
            rw [List.replicate_succ] at hb
            simp only [List.head?_cons, Option.mem_def, Option.some.injEq] at hb
            rw [← hb]
  unfold new_lookup
  simp only []
  by_cases hk : MAX_K_FOR_LOOKUP < slen / (tau + 1)
  · rw [if_pos hk]
    refine ⟨by trivial, by trivial, by simp, ?_, hrep _ _⟩
    intro i hi
    rw [if_pos hk]
    rw [List.getD_eq_getElem?_getD, List.getElem?_replicate]
    rw [if_pos (by omega)]
    rfl
  · rw [if_neg hk]
    refine ⟨by trivial, by trivial, by simp, ?_, ?_⟩
    · intro i hi
      rw [if_neg hk, getD_map_range _ (0 : Int) (by omega)]
    · rw [List.chain'_map]
      have hsucc : tau + 1 = Nat.succ tau := rfl
      rw [hsucc, List.chain'_range_succ]
      intro m hm
      by_cases h1 : m < tau - slen % (tau + 1) <;>
        by_cases h2 : m + 1 < tau - slen % (tau + 1) <;>
          simp [h1, h2] <;> omega

lemma drop_getD_cons {klen : List Int} {i : Nat} (h : i < klen.length) :
    klen.drop i = klen.getD i 0 :: klen.drop (i + 1) := by
  rw [List.drop_eq_getElem_cons h, List.getD_eq_getElem?_getD,
    List.getElem?_eq_getElem h]
  rfl

/-- Step relation of the offset accumulator of the insert/search loops. -/
lemma kmerOff_step {lt : lookup} {i : Nat} (h : i < lt.klen.length) :
    kmerOff lt (i + 1) - lt.klen.getD i 0 = kmerOff lt i := by
  unfold kmerOff
  rw [drop_getD_cons h, List.sum_cons]
  ring

lemma seq2idGo_cases : ∀ (s : List Char) (k acc : Nat),
    seq2idGo s k acc = -1 ∨ seq2idGo s k acc = -2 ∨ 0 ≤ seq2idGo s k acc := by
  intro s
  induction s with
  | nil =>
      intro k acc
      cases k with
      | zero => right; right; exact Int.ofNat_nonneg acc
      | succ m => right; left; rfl
  | cons c cs ih =>
      intro k acc
      cases k with
      | zero => right; right; exact Int.ofNat_nonneg acc
      | succ m =>
          simp only [seq2idGo]
          cases hc : charCode c with
          | none => left; rfl
          | some v => exact ih m (acc * 4 + v)

lemma seq2id_cases (s : List Char) (k : Nat) :
    seq2id s k = -1 ∨ seq2id s k = -2 ∨ 0 ≤ seq2id s k :=
  seq2idGo_cases s k 0

lemma seq2idGo_nonneg : ∀ (s : List Char) (k acc : Nat), k ≤ s.length →
    (∀ c ∈ s.take k, charCode c ≠ none) → 0 ≤ seq2idGo s k acc := by
  intro s
  induction s with
  | nil =>
      intro k acc hk _
      have : k = 0 := by simpa using hk
      subst this
      exact Int.ofNat_nonneg acc
  | cons c cs ih =>
      intro k acc hk hval
      cases k with
      | zero => exact Int.ofNat_nonneg acc
      | succ m =>
          simp only [seq2idGo]
          cases hc : charCode c with
          | none =>
              exfalso
              exact hval c (by simp [List.take_succ_cons]) hc
          | some v =>
              refine ih m (acc * 4 + v) (by simpa using hk) ?_
              intro d hd
              exact hval d (by simp [List.take_succ_cons, hd])

lemma seq2id_nonneg (s : List Char) (k : Nat) (hk : k ≤ s.length)
    (hval : ∀ c ∈ s.take k, charCode c ≠ none) : 0 ≤ seq2id s k :=
  seq2idGo_nonneg s k 0 hk hval

lemma seq2idGo_take_congr : ∀ (k : Nat) (s1 s2 : List Char) (acc : Nat),
    s1.take k = s2.take k → seq2idGo s1 k acc = seq2idGo s2 k acc := by
  intro k
  induction k with
  | zero => intro s1 s2 acc _; cases s1 <;> cases s2 <;> rfl
  | succ m ih =>
      intro s1 s2 acc heq
      cases s1 with
      | nil =>
          cases s2 with
          | nil => rfl
          | cons y ys => simp [List.take_succ_cons] at heq
      | cons x xs =>
          cases s2 with
          | nil => simp [List.take_succ_cons] at heq
          | cons y ys =>
              simp only [List.take_succ_cons, List.cons.injEq] at heq
              obtain ⟨h1, h2⟩ := heq
              subst h1
              simp only [seq2idGo]
              cases charCode x with
              | none => rfl
              | some v => exact ih xs ys (acc * 4 + v) h2

lemma seq2id_take_congr {k : Nat} {s1 s2 : List Char}
    (h : s1.take k = s2.take k) : seq2id s1 k = seq2id s2 k :=
  seq2idGo_take_congr k s1 s2 0 h

/-- Behaviour of the `lut_insert` loop started at kmer count `i` with
the matching accumulated offset: possible return values, the exact
condition for returning 1, monotonicity of the bitmaps, untouched rows,
at most one new bit per row, and the rows written on success. -/
lemma lut_insert_go_spec (q : List Char) (lt : lookup) :
    ∀ (i : Nat) (tbl : Nat → Nat → Bool), i ≤ lt.klen.length →
    ((lut_insert_go q lt.klen tbl i (kmerOff lt i)).2 = 0 ∨
      (lut_insert_go q lt.klen tbl i (kmerOff lt i)).2 = 1) ∧
    ((lut_insert_go q lt.klen tbl i (kmerOff lt i)).2 = 1 ↔
      ∃ a, a < i ∧
        seq2id (q.drop (kmerOff lt a).toNat) ((lt.klen.getD a 0).toNat) = -2) ∧
    (∀ x y, tbl x y = true →
      (lut_insert_go q lt.klen tbl i (kmerOff lt i)).1 x y = true) ∧
    (∀ x y, i ≤ x →
      (lut_insert_go q lt.klen tbl i (kmerOff lt i)).1 x y = tbl x y) ∧
    (∀ x, ∃ p, ∀ y, y ≠ p →
      (lut_insert_go q lt.klen tbl i (kmerOff lt i)).1 x y = tbl x y) ∧
    ((lut_insert_go q lt.klen tbl i (kmerOff lt i)).2 = 0 →
      ∀ x, x < i →
        (seq2id (q.drop (kmerOff lt x).toNat) ((lt.klen.getD x 0).toNat) = -1 →
          ∀ y, (lut_insert_go q lt.klen tbl i (kmerOff lt i)).1 x y = tbl x y) ∧
        (∀ v : Nat,
          seq2id (q.drop (kmerOff lt x).toNat) ((lt.klen.getD x 0).toNat) =
            (v : Int) →
          (lut_insert_go q lt.klen tbl i (kmerOff lt i)).1 x v = true)) := by
  intro i
  induction i with
  | zero =>
      intro tbl _
      refine ⟨Or.inl rfl, ?_, fun x y h => h, fun x y _ => rfl,
        fun x => ⟨0, fun y _ => rfl⟩, fun _ x hx => absurd hx (by omega)⟩
      simp only [lut_insert_go]
      constructor
      · intro h; exact absurd h (by decide)
      · rintro ⟨a, ha, _⟩; omega
  | succ i ih =>
      intro tbl hile
      have hilt : i < lt.klen.length := by omega
      have hoff := kmerOff_step hilt
      have hunf : lut_insert_go q lt.klen tbl (i + 1) (kmerOff lt (i + 1)) =
          (let k := lt.klen.getD i 0
           let off2 := kmerOff lt (i + 1) - k
           let s := seq2id (q.drop off2.toNat) k.toNat
           if 0 ≤ s then
             lut_insert_go q lt.klen
               (fun x y => if x = i ∧ y = s.toNat then true else tbl x y) i off2
           else if s = -2 then (tbl, 1)
           else lut_insert_go q lt.klen tbl i off2) := rfl
      rw [hunf]
      simp only [hoff]
      by_cases hs : 0 ≤ seq2id (q.drop (kmerOff lt i).toNat)
          ((lt.klen.getD i 0).toNat)
      · rw [if_pos hs]
        obtain ⟨r1, r2, r3, r4, r5, r6⟩ :=
          ih (fun x y =>
            if x = i ∧ y = (seq2id (q.drop (kmerOff lt i).toNat)
              ((lt.klen.getD i 0).toNat)).toNat then true else tbl x y)
            (by omega)
        refine ⟨r1, ?_, ?_, ?_, ?_, ?_⟩
        · rw [r2]
          constructor
          · rintro ⟨a, ha, h2⟩; exact ⟨a, by omega, h2⟩
          · rintro ⟨a, ha, h2⟩
            refine ⟨a, ?_, h2⟩
            rcases Nat.lt_or_ge a i with h | h
            · exact h
            · exfalso
              have : a = i := by omega
              rw [this] at h2
              rw [h2] at hs
              exact absurd hs (by decide)
        · intro x y hxy
          refine r3 x y ?_
          show (if x = i ∧ y = _ then true else tbl x y) = true
          split_ifs with hc
          · rfl
          · exact hxy
        · intro x y hx
          rw [r4 x y (by omega)]
          rw [if_neg (by omega)]
        · intro x
          by_cases hx : x = i
          · subst hx
            refine ⟨(seq2id (q.drop (kmerOff lt x).toNat)
              ((lt.klen.getD x 0).toNat)).toNat, ?_⟩
            intro y hy
            rw [r4 x y (le_refl x)]
            rw [if_neg (by tauto)]
          · obtain ⟨p, hp⟩ := r5 x
            refine ⟨p, fun y hy => ?_⟩
            rw [hp y hy, if_neg (by tauto)]
        · intro hret x hx
          rcases Nat.lt_or_ge x i with hxi | hxi
          · obtain ⟨c1, c2⟩ := r6 hret x hxi
            refine ⟨?_, ?_⟩
            · intro hneg y
              rw [c1 hneg y, if_neg (by omega)]
            · intro v hv
              exact c2 v hv
          · have hxe : x = i := by omega
            subst hxe
            refine ⟨?_, ?_⟩
            · intro hneg
              rw [hneg] at hs
              exact absurd hs (by decide)
            · intro v hv
              refine r3 x v ?_
              rw [if_pos ⟨rfl, by rw [hv]; rfl⟩]
      · rcases seq2id_cases (q.drop (kmerOff lt i).toNat)
            ((lt.klen.getD i 0).toNat) with hm1 | hrest
        · rw [if_neg hs, if_neg (by rw [hm1]; decide)]
          obtain ⟨r1, r2, r3, r4, r5, r6⟩ := ih tbl (by omega)
          refine ⟨r1, ?_, r3, fun x y hx => r4 x y (by omega), r5, ?_⟩
          · rw [r2]
            constructor
            · rintro ⟨a, ha, h2⟩; exact ⟨a, by omega, h2⟩
            · rintro ⟨a, ha, h2⟩
              refine ⟨a, ?_, h2⟩
              rcases Nat.lt_or_ge a i with h | h
              · exact h
              · exfalso
                have : a = i := by omega
                rw [this, hm1] at h2
                exact absurd h2 (by decide)
          · intro hret x hx
            rcases Nat.lt_or_ge x i with hxi | hxi
            · exact r6 hret x hxi
            · have hxe : x = i := by omega
              subst hxe
              refine ⟨fun _ y => r4 x y (le_refl x), ?_⟩
              intro v hv
              rw [hm1] at hv
              exfalso
              omega
        · rcases hrest with hm2 | hge
          · rw [if_neg hs, if_pos hm2]
            refine ⟨Or.inr rfl, ?_, fun x y h => h, fun x y _ => rfl,
              fun x => ⟨0, fun y _ => rfl⟩, ?_⟩
            · constructor
              · intro _; exact ⟨i, by omega, hm2⟩
              · intro _; rfl
            · intro hc
              simp at hc
          · exact absurd hge hs

/-- C10.  `lut_insert` sets at most one bit per k-mer bitmap and only
ever adds bits; a k-mer whose code is `-1` (an invalid character such
as `N` in the window) leaves its bitmap untouched while insertion
continues with the remaining k-mers; the function returns 1 exactly
when some k-mer window reaches the string terminator (`seq2id = -2`)
and 0 otherwise, and on return 0 every k-mer with a valid code has its
bit set.  The hypotheses state that the k-mer layout is the well-formed
one produced by `new_lookup` (lengths list of size `kmers`, entries
non-negative, fitting in `slen`), keeping all modelled pointer
arithmetic inside the string. -/
theorem lut_insert_spec (lt : lookup) (q : List Char)
    (hkl : lt.klen.length = lt.kmers)
    (hpos : ∀ x ∈ lt.klen, 0 ≤ x)
    (hsum : lt.klen.sum ≤ (lt.slen : Int)) :
    ((lut_insert lt q).2 = 0 ∨ (lut_insert lt q).2 = 1) ∧
    ((lut_insert lt q).2 = 1 ↔ ∃ i, i < lt.kmers ∧
        seq2id (q.drop (kmerOff lt i).toNat) ((lt.klen.getD i 0).toNat) = -2) ∧
    (∀ i, ∃ p, ∀ y, y ≠ p →
        (lut_insert lt q).1.tbl i y = lt.tbl i y) ∧
    (∀ i y, lt.tbl i y = true → (lut_insert lt q).1.tbl i y = true) ∧
    ((lut_insert lt q).2 = 0 → ∀ i, i < lt.kmers →
        (seq2id (q.drop (kmerOff lt i).toNat) ((lt.klen.getD i 0).toNat) = -1 →
          ∀ y, (lut_insert lt q).1.tbl i y = lt.tbl i y) ∧
        (∀ v : Nat,
          seq2id (q.drop (kmerOff lt i).toNat) ((lt.klen.getD i 0).toNat) =
            (v : Int) →
          (lut_insert lt q).1.tbl i v = true)) := by
  have hoff0 : kmerOff lt lt.kmers = (lt.slen : Int) := by
    unfold kmerOff
    rw [List.drop_eq_nil_of_le (by omega)]
    simp
  have hrw : lut_insert lt q =
      ({ lt with tbl :=
          (lut_insert_go q lt.klen lt.tbl lt.kmers (kmerOff lt lt.kmers)).1 },
        (lut_insert_go q lt.klen lt.tbl lt.kmers (kmerOff lt lt.kmers)).2) := by
    unfold lut_insert
    rw [hoff0]
  obtain ⟨r1, r2, r3, r4, r5, r6⟩ :=
    lut_insert_go_spec q lt lt.kmers lt.tbl (by omega)
  rw [hrw]
  exact ⟨r1, r2, fun i => r5 i, fun i y h => r3 i y h, r6⟩

/-- Witness for C10: the filter from `new_lookup 8 8 1` (k-mer lengths
`[3, 4]`) and the sequence `AACGNNNN`: the right k-mer `NNNN` has code
`-1` and is skipped, the left k-mer `ACG` is inserted, and the call
returns 0. -/
theorem lut_insert_spec_witness :
    (new_lookup 8 8 1).klen.length = (new_lookup 8 8 1).kmers ∧
    (∀ x ∈ (new_lookup 8 8 1).klen, 0 ≤ x) ∧
    (new_lookup 8 8 1).klen.sum ≤ ((new_lookup 8 8 1).slen : Int) ∧
    (((lut_insert (new_lookup 8 8 1)
        ['A', 'A', 'C', 'G', 'N', 'N', 'N', 'N']).2 = 0 ∨
      (lut_insert (new_lookup 8 8 1)
        ['A', 'A', 'C', 'G', 'N', 'N', 'N', 'N']).2 = 1) ∧
    ((lut_insert (new_lookup 8 8 1)
        ['A', 'A', 'C', 'G', 'N', 'N', 'N', 'N']).2 = 1 ↔
      ∃ i, i < (new_lookup 8 8 1).kmers ∧
        seq2id ((['A', 'A', 'C', 'G', 'N', 'N', 'N', 'N'] : List Char).drop
            (kmerOff (new_lookup 8 8 1) i).toNat)
          (((new_lookup 8 8 1).klen.getD i 0).toNat) = -2) ∧
    (∀ i, ∃ p, ∀ y, y ≠ p →
        (lut_insert (new_lookup 8 8 1)
          ['A', 'A', 'C', 'G', 'N', 'N', 'N', 'N']).1.tbl i y =
          (new_lookup 8 8 1).tbl i y) ∧
    (∀ i y, (new_lookup 8 8 1).tbl i y = true →
        (lut_insert (new_lookup 8 8 1)
          ['A', 'A', 'C', 'G', 'N', 'N', 'N', 'N']).1.tbl i y = true) ∧
    ((lut_insert (new_lookup 8 8 1)
        ['A', 'A', 'C', 'G', 'N', 'N', 'N', 'N']).2 = 0 →
      ∀ i, i < (new_lookup 8 8 1).kmers →
        (seq2id ((['A', 'A', 'C', 'G', 'N', 'N', 'N', 'N'] : List Char).drop
            (kmerOff (new_lookup 8 8 1) i).toNat)
          (((new_lookup 8 8 1).klen.getD i 0).toNat) = -1 →
          ∀ y, (lut_insert (new_lookup 8 8 1)
            ['A', 'A', 'C', 'G', 'N', 'N', 'N', 'N']).1.tbl i y =
            (new_lookup 8 8 1).tbl i y) ∧
        (∀ v : Nat,
          seq2id ((['A', 'A', 'C', 'G', 'N', 'N', 'N', 'N'] : List Char).drop
            (kmerOff (new_lookup 8 8 1) i).toNat)
          (((new_lookup 8 8 1).klen.getD i 0).toNat) = (v : Int) →
          (lut_insert (new_lookup 8 8 1)
            ['A', 'A', 'C', 'G', 'N', 'N', 'N', 'N']).1.tbl i v = true))) :=
  ⟨by decide, by decide, by decide,
    lut_insert_spec (new_lookup 8 8 1) ['A', 'A', 'C', 'G', 'N', 'N', 'N', 'N']
      (by decide) (by decide) (by decide)⟩

/-! ## Edit scripts and the no-false-negative property of the filter

Modelled from the spec: the Levenshtein metric itself lives in the
external trie implementation, so edit distance is embedded as the
standard edit-script relation — `ed a b n` holds when `b` is obtained
from `a` by an alignment containing `n` substitutions, deletions and
insertions.  `edit_distance(a,b) ≤ τ` is rendered as
`∃ n ≤ τ, ed a b n`. -/

inductive ed : List Char → List Char → Nat → Prop
  | nil : ed [] [] 0
  | mtch {a b : List Char} {n : Nat} (c : Char) :
      ed a b n → ed (c :: a) (c :: b) n
  | subst {a b : List Char} {n : Nat} (c d : Char) :
      ed a b n → ed (c :: a) (d :: b) (n + 1)
  | del {a b : List Char} {n : Nat} (c : Char) :
      ed a b n → ed (c :: a) b (n + 1)
  | ins {a b : List Char} {n : Nat} (c : Char) :
      ed a b n → ed a (c :: b) (n + 1)

lemma ed_refl : ∀ (a : List Char), ed a a 0 := by
  intro a
  induction a with
  | nil => exact ed.nil
  | cons c cs ih => exact ed.mtch c ih

lemma ed_length : ∀ {a b : List Char} {n : Nat}, ed a b n →
    a.length ≤ b.length + n ∧ b.length ≤ a.length + n := by
  intro a b n h
  induction h with
  | nil => exact ⟨le_refl _, le_refl _⟩
  | mtch c _ ih => simp only [List.length_cons]; omega
  | subst c d _ ih => simp only [List.length_cons]; omega
  | del c _ ih => simp only [List.length_cons]; omega
  | ins c _ ih => simp only [List.length_cons]; omega

lemma ed_zero_eq : ∀ {a b : List Char}, ed a b 0 → a = b := by
  intro a b h
  generalize hn : (0 : Nat) = n at h
  induction h with
  | nil => rfl
  | mtch c _ ih => rw [ih hn]
  | subst c d _ _ => omega
  | del c _ _ => omega
  | ins c _ _ => omega

lemma ed_nil_length {v : List Char} {n : Nat} (h : ed [] v n) :
    v.length ≤ n :=
  (ed_length h).2.trans (by simp)

/-- C3 as stated is false: sequences made of `N` defeat the filter.
With the filter from `new_lookup 8 8 1` and `a = b = "NNNNNNNN"`, the
edit distance is 0 ≤ τ = 1 and `lut_insert` has been performed, yet
`lut_search` returns 0, not 1: every k-mer of `a` contains `N`, so
`seq2id` returns `-1` and no bit is ever set or found. -/
theorem lut_filter_counterexample :
    (∃ n, n ≤ 1 ∧ ed (List.replicate 8 'N') (List.replicate 8 'N') n) ∧
    lut_search ((lut_insert (new_lookup 8 8 1) (List.replicate 8 'N')).1)
      (List.replicate 8 'N') ≠ 1 :=
  ⟨⟨0, by omega, ed_refl _⟩, by decide⟩

/-- An edit script for `x ++ y` splits into scripts for `x` and `y`
against a split of the target. -/
lemma ed_split : ∀ {A B : List Char} {n : Nat}, ed A B n →
    ∀ x y, A = x ++ y →
    ∃ u v n1 n2, B = u ++ v ∧ n1 + n2 = n ∧ ed x u n1 ∧ ed y v n2 := by
  intro A B n h
  induction h with
  | nil =>
      intro x y hxy
      obtain ⟨hx, hy⟩ := List.append_eq_nil.mp hxy.symm
      subst hx; subst hy
      exact ⟨[], [], 0, 0, rfl, rfl, ed.nil, ed.nil⟩
  | @mtch a b n c hprev ih =>
      intro x y hxy
      cases x with
      | nil =>
          refine ⟨[], c :: b, 0, n, rfl, by omega, ed.nil, ?_⟩
          simp only [List.nil_append] at hxy
          rw [← hxy]
          exact ed.mtch c hprev
      | cons x0 xs =>
          injection hxy with h1 h2
          subst h1
          obtain ⟨u, v, n1, n2, hB, hn, hx, hy⟩ := ih xs y h2
          exact ⟨c :: u, v, n1, n2, by rw [hB]; rfl, hn, ed.mtch c hx, hy⟩
  | @subst a b n c d hprev ih =>
      intro x y hxy
      cases x with
      | nil =>
          refine ⟨[], d :: b, 0, n + 1, rfl, by omega, ed.nil, ?_⟩
          simp only [List.nil_append] at hxy
          rw [← hxy]
          exact ed.subst c d hprev
      | cons x0 xs =>
          injection hxy with h1 h2
          subst h1
          obtain ⟨u, v, n1, n2, hB, hn, hx, hy⟩ := ih xs y h2
          exact ⟨d :: u, v, n1 + 1, n2, by rw [hB]; rfl, by omega,
            ed.subst c d hx, hy⟩
  | @del a b n c hprev ih =>
      intro x y hxy
      cases x with
      | nil =>
          refine ⟨[], b, 0, n + 1, rfl, by omega, ed.nil, ?_⟩
          simp only [List.nil_append] at hxy
          rw [← hxy]
          exact ed.del c hprev
      | cons x0 xs =>
          injection hxy with h1 h2
          subst h1
          obtain ⟨u, v, n1, n2, hB, hn, hx, hy⟩ := ih xs y h2
          exact ⟨u, v, n1 + 1, n2, hB, by omega, ed.del c hx, hy⟩
  | @ins a b n c hprev ih =>
      intro x y hxy
      obtain ⟨u, v, n1, n2, hB, hn, hx, hy⟩ := ih x y hxy
      exact ⟨c :: u, v, n1 + 1, n2, by rw [hB]; rfl, by omega,
        ed.ins c hx, hy⟩

/-- Chunk-aligned edit scripts: `edChunks ks us ns` pairs each source
chunk with a target chunk and a cost. -/
inductive edChunks :
    List (List Char) → List (List Char) → List Nat → Prop
  | nil : edChunks [] [] []
  | cons {k u : List Char} {n : Nat} {ks us : List (List Char)}
      {ns : List Nat} :
      ed k u n → edChunks ks us ns → edChunks (k :: ks) (u :: us) (n :: ns)

lemma edChunks_lengths : ∀ {ks us : List (List Char)} {ns : List Nat},
    edChunks ks us ns → us.length = ks.length ∧ ns.length = ks.length := by
  intro ks us ns h
  induction h with
  | nil => exact ⟨rfl, rfl⟩
  | cons _ _ ih => simp only [List.length_cons]; omega

lemma edChunks_getD : ∀ {ks us : List (List Char)} {ns : List Nat},
    edChunks ks us ns → ∀ j, j < ks.length →
    ed (ks.getD j []) (us.getD j []) (ns.getD j 0) := by
  intro ks us ns h
  induction h with
  | nil => intro j hj; simp at hj
  | cons hed _ ih =>
      intro j hj
      cases j with
      | zero => exact hed
      | succ j2 => exact ih j2 (by simpa using hj)

lemma edChunks_sum_length : ∀ {ks us : List (List Char)} {ns : List Nat},
    edChunks ks us ns →
    (ks.map List.length).sum ≤ (us.map List.length).sum + ns.sum ∧
    (us.map List.length).sum ≤ (ks.map List.length).sum + ns.sum := by
  intro ks us ns h
  induction h with
  | nil => simp
  | cons hed _ ih =>
      obtain ⟨u1, u2⟩ := ed_length hed
      simp only [List.map_cons, List.sum_cons]
      omega

lemma edChunks_drop : ∀ (r : Nat) {ks us : List (List Char)} {ns : List Nat},
    edChunks ks us ns → edChunks (ks.drop r) (us.drop r) (ns.drop r) := by
  intro r
  induction r with
  | zero => intro ks us ns h; exact h
  | succ r2 ih =>
      intro ks us ns h
      cases h with
      | nil => exact edChunks.nil
      | cons _ htail => exact ih htail

/-- Splitting an edit script along a list of source chunks. -/
lemma ed_chunks_split : ∀ (ks : List (List Char)) (rest B : List Char)
    (n : Nat), ed (ks.flatten ++ rest) B n →
    ∃ us ns v m, edChunks ks us ns ∧ B = us.flatten ++ v ∧ ed rest v m ∧
      ns.sum + m = n := by
  intro ks
  induction ks with
  | nil =>
      intro rest B n h
      refine ⟨[], [], B, n, edChunks.nil, rfl, ?_, by simp⟩
      simpa using h
  | cons k ks ih =>
      intro rest B n h
      have he : (k :: ks).flatten ++ rest = k ++ (ks.flatten ++ rest) := by
        simp
      rw [he] at h
      obtain ⟨u, v0, n1, n2, hB, hn, hk, hrest⟩ :=
        ed_split h k (ks.flatten ++ rest) rfl
      obtain ⟨us, ns, v, m, hch, hv0, hrv, hsum⟩ := ih rest v0 n2 hrest
      refine ⟨u :: us, n1 :: ns, v, m, edChunks.cons hk hch, ?_, hrv, ?_⟩
      · rw [hB, hv0]
        simp
      · simp only [List.sum_cons]
        omega

/-- The pigeonhole kernel: with fewer errors than chunks, some chunk is
error-free and the error mass strictly after it fits in its rank. -/
lemma find_clean : ∀ (ns : List Nat), ns.sum < ns.length →
    ∃ r, r < ns.length ∧ ns.getD r 0 = 0 ∧
      (ns.drop (r + 1)).sum + r + 1 ≤ ns.length := by
  intro ns
  induction ns with
  | nil => intro h; simp at h
  | cons x tl ih =>
      intro h
      simp only [List.sum_cons, List.length_cons] at h
      by_cases htl : tl.sum < tl.length
      · obtain ⟨r, hr, hz, hb⟩ := ih htl
        refine ⟨r + 1, by simpa using Nat.succ_lt_succ hr, ?_, ?_⟩
        · simpa using hz
        · simp only [List.drop_succ_cons, List.length_cons]
          omega
      · have hx : x = 0 := by omega
        refine ⟨0, by simp, by simp [hx], ?_⟩
        simp only [List.drop_succ_cons, List.drop_zero, List.length_cons]
        omega

/-- Cutting a string into the k-mer chunks prescribed by `klen`. -/
def chop : List Char → List Int → List (List Char)
  | _, [] => []
  | s, k :: ks => s.take k.toNat :: chop (s.drop k.toNat) ks

/-- Sum of a list of non-negative integers, read as naturals. -/
lemma sum_toNat_of_nonneg : ∀ (l : List Int), (∀ x ∈ l, 0 ≤ x) →
    l.sum = ((l.map Int.toNat).sum : Nat) := by
  intro l
  induction l with
  | nil => intro _; rfl
  | cons x tl ih =>
      intro h
      simp only [List.sum_cons, List.map_cons]
      rw [ih (fun y hy => h y (List.mem_cons_of_mem _ hy))]
      have hx : 0 ≤ x := h x (List.mem_cons_self _ _)
      push_cast
      omega

lemma chop_length : ∀ (klen : List Int) (s : List Char),
    (chop s klen).length = klen.length := by
  intro klen
  induction klen with
  | nil => intro s; rfl
  | cons k ks ih => intro s; simp [chop, ih]

lemma chop_map_length : ∀ (klen : List Int) (s : List Char),
    s.length = ((klen.map Int.toNat).sum) →
    (chop s klen).map List.length = klen.map Int.toNat := by
  intro klen
  induction klen with
  | nil => intro s _; rfl
  | cons k ks ih =>
      intro s hs
      simp only [List.map_cons, List.sum_cons] at hs
      simp only [chop, List.map_cons]
      rw [ih (s.drop k.toNat) (by simp [hs])]
      have : (s.take k.toNat).length = k.toNat := by
        simp
        omega
      rw [this]

lemma chop_flatten : ∀ (klen : List Int) (s : List Char),
    s.length = ((klen.map Int.toNat).sum) →
    (chop s klen).flatten = s := by
  intro klen
  induction klen with
  | nil =>
      intro s hs
      simp only [List.map_nil, List.sum_nil] at hs
      simp [chop, List.length_eq_zero.mp hs]
  | cons k ks ih =>
      intro s hs
      simp only [List.map_cons, List.sum_cons] at hs
      simp only [chop, List.flatten_cons]
      rw [ih (s.drop k.toNat) (by simp [hs])]
      exact List.take_append_drop _ s

/-- Length of the flattened prefix before chunk `r`. -/
def flatLen (us : List (List Char)) (r : Nat) : Nat :=
  ((us.map List.length).take r).sum

lemma flatten_drop_flatLen : ∀ (us : List (List Char)) (r : Nat),
    us.flatten.drop (flatLen us r) = (us.drop r).flatten := by
  intro us
  induction us with
  | nil => intro r; simp [flatLen]
  | cons u tl ih =>
      intro r
      cases r with
      | zero => simp [flatLen]
      | succ r2 =>
          have hfl : flatLen (u :: tl) (r2 + 1) = u.length + flatLen tl r2 := by
            simp [flatLen, List.map_cons, List.take_succ_cons]
          rw [List.flatten_cons, hfl, List.drop_append, ih r2,
            List.drop_succ_cons]

lemma mem_winList {w : Nat} {j : Int} :
    j ∈ winList w ↔ -(w : Int) ≤ j ∧ j ≤ w := by
  unfold winList
  simp only [List.mem_map, List.mem_range]
  constructor
  · rintro ⟨t, ht, rfl⟩
    omega
  · rintro ⟨h1, h2⟩
    exact ⟨(j + (w : Int)).toNat, by omega, by omega⟩

lemma searchWin_values (tbl : Nat → Nat → Bool) (i : Nat) (q : List Char)
    (off : Int) (k : Nat) : ∀ (js : List Int),
    searchWin tbl i q off k js = -1 ∨ searchWin tbl i q off k js = 0 ∨
      searchWin tbl i q off k js = 1 := by
  intro js
  induction js with
  | nil => right; left; rfl
  | cons j js ih =>
      simp only [searchWin]
      split_ifs with h1 h2 h3
      · left; rfl
      · exact ih
      · right; right; rfl
      · exact ih

lemma searchWin_ne_err (tbl : Nat → Nat → Bool) (i : Nat) (q : List Char)
    (off : Int) (k : Nat) : ∀ (js : List Int),
    (∀ j ∈ js, seq2id (q.drop (off + j).toNat) k ≠ -2) →
    searchWin tbl i q off k js ≠ -1 := by
  intro js
  induction js with
  | nil => intro _; simp [searchWin]
  | cons j js ih =>
      intro hno
      simp only [searchWin]
      split_ifs with h1 h2 h3
      · exact absurd h1 (hno j (List.mem_cons_self _ _))
      · exact ih (fun j2 hj2 => hno j2 (List.mem_cons_of_mem _ hj2))
      · simp
      · exact ih (fun j2 hj2 => hno j2 (List.mem_cons_of_mem _ hj2))

lemma searchWin_hit (tbl : Nat → Nat → Bool) (i : Nat) (q : List Char)
    (off : Int) (k : Nat) : ∀ (js : List Int),
    (∀ j ∈ js, seq2id (q.drop (off + j).toNat) k ≠ -2) →
    (∃ j ∈ js, 0 ≤ seq2id (q.drop (off + j).toNat) k ∧
      tbl i (seq2id (q.drop (off + j).toNat) k).toNat = true) →
    searchWin tbl i q off k js = 1 := by
  intro js
  induction js with
  | nil => rintro _ ⟨j, hj, _⟩; simp at hj
  | cons j0 js ih =>
      rintro hno ⟨j, hj, hge, hbit⟩
      simp only [searchWin]
      split_ifs with h1 h2 h3
      · exact absurd h1 (hno j0 (List.mem_cons_self _ _))
      · rcases List.mem_cons.mp hj with he | he
        · subst he
          rw [h2] at hge
          exact absurd hge (by decide)
        · exact ih (fun j2 hj2 => hno j2 (List.mem_cons_of_mem _ hj2))
            ⟨j, he, hge, hbit⟩
      · rfl
      · rcases List.mem_cons.mp hj with he | he
        · subst he
          exact absurd hbit h3
        · exact ih (fun j2 hj2 => hno j2 (List.mem_cons_of_mem _ hj2))
            ⟨j, he, hge, hbit⟩

/-- The outer search loop returns 1 when no probed window reaches the
terminator and some probed window has its bit set. -/
lemma lut_search_go_one (lt : lookup) (q : List Char)
    (hkl : lt.klen.length = lt.kmers) : ∀ (i : Nat), i ≤ lt.kmers →
    (∀ x, x < i → ∀ j ∈ winList (lt.kmers - 1 - x),
      seq2id (q.drop (kmerOff lt x + j).toNat) ((lt.klen.getD x 0).toNat) ≠ -2) →
    (∃ x, x < i ∧ ∃ j ∈ winList (lt.kmers - 1 - x),
      0 ≤ seq2id (q.drop (kmerOff lt x + j).toNat) ((lt.klen.getD x 0).toNat) ∧
      lt.tbl x (seq2id (q.drop (kmerOff lt x + j).toNat)
        ((lt.klen.getD x 0).toNat)).toNat = true) →
    lut_search_go lt q i (kmerOff lt i) = 1 := by
  intro i
  induction i with
  | zero =>
      rintro _ _ ⟨x, hx, _⟩
      omega
  | succ i ih =>
      intro hi hno hhit
      have hilt : i < lt.klen.length := by omega
      have hoff := kmerOff_step hilt
      have hunf : lut_search_go lt q (i + 1) (kmerOff lt (i + 1)) =
          (let k := lt.klen.getD i 0
           let off2 := kmerOff lt (i + 1) - k
           let r := searchWin lt.tbl i q off2 k.toNat
             (winList (lt.kmers - 1 - i))
           if r = 0 then lut_search_go lt q i off2 else r) := rfl
      rw [hunf]
      simp only [hoff]
      rcases searchWin_values lt.tbl i q (kmerOff lt i)
          ((lt.klen.getD i 0).toNat) (winList (lt.kmers - 1 - i)) with
        hv | hv | hv
      · exact absurd hv (searchWin_ne_err _ _ _ _ _ _
          (fun j hj => hno i (by omega) j hj))
      · rw [hv, if_pos rfl]
        obtain ⟨x, hx, j, hj, hge, hbit⟩ := hhit
        rcases Nat.lt_or_ge x i with hxi | hxi
        · exact ih (by omega) (fun x2 hx2 => hno x2 (by omega))
            ⟨x, hxi, j, hj, hge, hbit⟩
        · exfalso
          have hxe : x = i := by omega
          subst hxe
          have := searchWin_hit lt.tbl x q (kmerOff lt x)
            ((lt.klen.getD x 0).toNat) (winList (lt.kmers - 1 - x))
            (fun j2 hj2 => hno x (by omega) j2 hj2) ⟨j, hj, hge, hbit⟩
          rw [hv] at this
          exact absurd this (by decide)
      · rw [hv, if_neg (by decide)]

lemma drop_getD_cons_any {α : Type} (d : α) {l : List α} {i : Nat}
    (h : i < l.length) : l.drop i = l.getD i d :: l.drop (i + 1) := by
  rw [List.drop_eq_getElem_cons h, List.getD_eq_getElem?_getD,
    List.getElem?_eq_getElem h]
  rfl

lemma getD_map {α β : Type} (f : α → β) (d : α) (l : List α) (r : Nat)
    (h : r < l.length) : (l.map f).getD r (f d) = f (l.getD r d) := by
  rw [List.getD_eq_getElem?_getD, List.getElem?_map,
    List.getElem?_eq_getElem h, List.getD_eq_getElem?_getD,
    List.getElem?_eq_getElem h]
  rfl

/-- A list of integers that are all at least 1 sums to at least its
length. -/
lemma sum_ge_length : ∀ (l : List Int), (∀ x ∈ l, 1 ≤ x) →
    (l.length : Int) ≤ l.sum := by
  intro l
  induction l with
  | nil => intro _; simp
  | cons x tl ih =>
      intro h
      have h1 := h x (List.mem_cons_self _ _)
      have h2 := ih (fun y hy => h y (List.mem_cons_of_mem _ hy))
      simp only [List.length_cons, List.sum_cons]
      push_cast
      omega

lemma sum_range_sub (k rem : Nat) (hk : 1 ≤ k) : ∀ (n : Nat),
    ((List.range n).map (fun i => k - (if i < rem then 1 else 0))).sum =
      n * k - min n rem := by
  intro n
  induction n with
  | zero => simp
  | succ m ih =>
      rw [List.range_succ, List.map_append, List.sum_append, ih]
      have hmul : (m + 1) * k = m * k + k := by ring
      have hmk : min m rem ≤ m * k := by
        calc min m rem ≤ m := by omega
          _ ≤ m * k := by
              calc m = m * 1 := by ring
                _ ≤ m * k := Nat.mul_le_mul_left m hk
      by_cases hm : m < rem
      · simp only [List.map_cons, List.map_nil, List.sum_cons,
          List.sum_nil, if_pos hm]
        omega
      · simp only [List.map_cons, List.map_nil, List.sum_cons,
          List.sum_nil, if_neg hm]
        omega

/-- Well-formedness of the filters built by `new_lookup` when the
median is at least `2*(τ+1)` (so `k ≥ 2`) and at most the padded
height: `τ+1` k-mer lengths, each at least 1, their total leaving at
least `τ` columns of slack in `slen`. -/
lemma new_lookup_wf (med maxlen tau : Nat) (hmed : 2 * (tau + 1) ≤ med)
    (hmm : med ≤ maxlen) :
    (new_lookup med maxlen tau).klen.length = tau + 1 ∧
    (∀ x ∈ (new_lookup med maxlen tau).klen, 1 ≤ x) ∧
    (((new_lookup med maxlen tau).klen.map Int.toNat).sum + tau ≤ maxlen) := by
  have htau1 : 0 < tau + 1 := by omega
  have hk2 : 2 ≤ med / (tau + 1) :=
    (Nat.le_div_iff_mul_le htau1).mpr hmed
  unfold new_lookup
  simp only []
  by_cases hk : MAX_K_FOR_LOOKUP < med / (tau + 1)
  · rw [if_pos hk]
    refine ⟨by simp, ?_, ?_⟩
    · intro x hx
      rw [List.eq_of_mem_replicate hx]
      decide
    · rw [List.map_replicate, List.sum_replicate, smul_eq_mul]
      have h15 : 15 ≤ med / (tau + 1) := by
        unfold MAX_K_FOR_LOOKUP at hk
        omega
      have := (Nat.le_div_iff_mul_le htau1).mp h15
      have htn : (MAX_K_FOR_LOOKUP : Int).toNat = 14 := by decide
      rw [htn]
      omega
  · rw [if_neg hk]
    obtain ⟨k, hkdef⟩ : ∃ v, med / (tau + 1) = v := ⟨_, rfl⟩
    obtain ⟨s, hsdef⟩ : ∃ v, med % (tau + 1) = v := ⟨_, rfl⟩
    have hdm := Nat.div_add_mod med (tau + 1)
    rw [hkdef, hsdef] at hdm
    rw [hkdef] at hk2
    have hslt : s < tau + 1 := by
      rw [← hsdef]; exact Nat.mod_lt _ htau1
    rw [hkdef, hsdef]
    refine ⟨by simp, ?_, ?_⟩
    · intro x hx
      rw [List.mem_map] at hx
      obtain ⟨i, _, rfl⟩ := hx
      split_ifs <;> omega
    · rw [List.map_map]
      have hfun : (Int.toNat ∘ fun i => (k : Int) -
          (if i < tau - s then 1 else 0)) =
          fun i => k - (if i < tau - s then 1 else 0) := by
        funext i
        simp only [Function.comp]
        split_ifs <;> omega
      rw [hfun, sum_range_sub k (tau - s) (by omega)]
      have hexp : (tau + 1) * k = tau * k + k := by ring
      have hmin : min (tau + 1) (tau - s) = tau - s := by omega
      rw [hmin]
      omega

/-- Every window probed by `lut_search` on a well-formed filter stays
inside `[0, slen]`: the start offset is non-negative and the window end
is at most `slen`. -/
lemma probe_window_bounds (lt : lookup)
    (hkl : lt.klen.length = lt.kmers)
    (hpos : ∀ x ∈ lt.klen, 1 ≤ x)
    (hKt : ((lt.klen.map Int.toNat).sum + (lt.kmers - 1) ≤ lt.slen)) :
    ∀ x, x < lt.kmers → ∀ j ∈ winList (lt.kmers - 1 - x),
      0 ≤ kmerOff lt x + j ∧
      (kmerOff lt x + j).toNat + (lt.klen.getD x 0).toNat ≤ lt.slen := by
  intro x hx j hj
  rw [mem_winList] at hj
  have hxlen : x < lt.klen.length := by omega
  have hsumK : lt.klen.sum = (((lt.klen.map Int.toNat).sum : Nat) : Int) :=
    sum_toNat_of_nonneg _ (fun y hy => le_trans (by omega) (hpos y hy))
  -- the drop-sums are between the remaining length and the total
  have hdropbig : ((lt.klen.drop x).sum : Int) ≤ lt.klen.sum := by
    have := List.sum_take_add_sum_drop lt.klen x
    have htk : (0 : Int) ≤ (lt.klen.take x).sum := by
      have : ((lt.klen.take x).length : Int) ≤ (lt.klen.take x).sum :=
        sum_ge_length _ (fun y hy => hpos y (List.mem_of_mem_take hy))
      have h0 : (0 : Int) ≤ ((lt.klen.take x).length : Int) := by positivity
      omega
    omega
  have hdrop1 : ((lt.klen.drop (x + 1)).length : Int) ≤
      (lt.klen.drop (x + 1)).sum :=
    sum_ge_length _ (fun y hy => hpos y (List.mem_of_mem_drop hy))
  have hlen1 : (lt.klen.drop (x + 1)).length = lt.klen.length - (x + 1) :=
    List.length_drop _ _
  have hstep : kmerOff lt (x + 1) - lt.klen.getD x 0 = kmerOff lt x :=
    kmerOff_step hxlen
  have hoffx : kmerOff lt x = (lt.slen : Int) - (lt.klen.drop x).sum := rfl
  have hoffx1 : kmerOff lt (x + 1) =
      (lt.slen : Int) - (lt.klen.drop (x + 1)).sum := rfl
  have hklx : (1 : Int) ≤ lt.klen.getD x 0 := by
    have : lt.klen.getD x 0 ∈ lt.klen := by
      rw [List.getD_eq_getElem?_getD, List.getElem?_eq_getElem hxlen]
      exact List.getElem_mem hxlen
    exact hpos _ this
  constructor
  · -- kmerOff x ≥ slen - K ≥ kmers - 1 ≥ w ≥ -j
    omega
  · -- window end at most slen
    have hcast : ((lt.klen.map Int.toNat).sum : Int) + (lt.kmers - 1 : Nat) ≤
        (lt.slen : Int) := by
      exact_mod_cast hKt
    omega

/-- The pigeonhole heart of filter soundness: if `b` is within `tau`
edits of `a` and the filter is well-formed, then some k-mer `r` of `a`
reappears in `b`, shifted by at most the window half-width `tau - r`
that `lut_search` probes for that k-mer. -/
lemma clean_kmer_occurrence (lt : lookup) (a b : List Char) (tau n : Nat)
    (hkl : lt.klen.length = tau + 1)
    (hpos : ∀ x ∈ lt.klen, 1 ≤ x)
    (hKt : (lt.klen.map Int.toNat).sum + tau ≤ lt.slen)
    (ha : a.length = lt.slen) (hb : b.length = lt.slen)
    (hed : ed a b n) (hn : n ≤ tau) :
    ∃ r, r < tau + 1 ∧ ∃ sft : Int,
      -(((tau - r) : Nat) : Int) ≤ sft ∧ sft ≤ (((tau - r) : Nat) : Int) ∧
      0 ≤ kmerOff lt r + sft ∧
      (b.drop (kmerOff lt r + sft).toNat).take ((lt.klen.getD r 0).toNat) =
        (a.drop (kmerOff lt r).toNat).take ((lt.klen.getD r 0).toNat) := by
  have hKle : (lt.klen.map Int.toNat).sum ≤ lt.slen := by omega
  obtain ⟨K, hKdef⟩ : ∃ v, (lt.klen.map Int.toNat).sum = v := ⟨_, rfl⟩
  rw [hKdef] at hKle hKt
  -- cut a into its padding and the k-mer chunks
  have hsA : (a.drop (lt.slen - K)).length = K := by
    rw [List.length_drop, ha]
    omega
  have hflat : (chop (a.drop (lt.slen - K)) lt.klen).flatten =
      a.drop (lt.slen - K) :=
    chop_flatten lt.klen _ (by rw [hsA, hKdef])
  have hks_maplen : (chop (a.drop (lt.slen - K)) lt.klen).map List.length =
      lt.klen.map Int.toNat :=
    chop_map_length lt.klen _ (by rw [hsA, hKdef])
  have hks_len : (chop (a.drop (lt.slen - K)) lt.klen).length = tau + 1 := by
    rw [chop_length, hkl]
  have ha2 : a = a.take (lt.slen - K) ++
      (chop (a.drop (lt.slen - K)) lt.klen).flatten := by
    rw [hflat, List.take_append_drop]
  -- split the edit script along the chunks
  obtain ⟨u0, B1, np, n2, hb1, hcost, hpadscript, htail⟩ :=
    ed_split hed (a.take (lt.slen - K))
      ((chop (a.drop (lt.slen - K)) lt.klen).flatten) ha2
  have htail2 : ed ((chop (a.drop (lt.slen - K)) lt.klen).flatten ++ [])
      B1 n2 := by rwa [List.append_nil]
  obtain ⟨us, ns, v, m, hch, hB1, hv, hsum2⟩ :=
    ed_chunks_split _ [] B1 n2 htail2
  have hvlen : v.length ≤ m := ed_nil_length hv
  obtain ⟨hus_len, hns_len⟩ := edChunks_lengths hch
  rw [hks_len] at hus_len hns_len
  -- find a clean chunk with enough window slack
  obtain ⟨r, hrlen, hrz, hrbound⟩ := find_clean (ns ++ [m + 1]) (by
    rw [List.sum_append, List.length_append, hns_len]
    simp only [List.sum_cons, List.sum_nil, List.length_cons,
      List.length_nil]
    omega)
  rw [List.length_append, hns_len] at hrlen
  simp only [List.length_cons, List.length_nil] at hrlen
  have hrlt : r < tau + 1 := by
    by_contra hge
    have hre : r = tau + 1 := by omega
    rw [hre, List.getD_append_right _ _ _ _ (by omega)] at hrz
    rw [hns_len] at hrz
    simp at hrz
  have hnsr : ns.getD r 0 = 0 := by
    rw [List.getD_append _ _ _ _ (by omega)] at hrz
    exact hrz
  have hsfx : (ns.drop (r + 1)).sum + m + r + 1 ≤ tau + 1 := by
    rw [List.drop_append_of_le_length (by omega), List.sum_append] at hrbound
    simp only [List.sum_cons, List.sum_nil, List.length_append,
      hns_len, List.length_cons, List.length_nil] at hrbound
    omega
  -- the clean chunk survives verbatim
  have hedr := edChunks_getD hch r (by omega)
  rw [hnsr] at hedr
  have hue : us.getD r [] = (chop (a.drop (lt.slen - K)) lt.klen).getD r [] :=
    (ed_zero_eq hedr).symm
  -- its length is the k-mer length
  have hkr_len : ((chop (a.drop (lt.slen - K)) lt.klen).getD r []).length =
      (lt.klen.getD r 0).toNat := by
    have h1 := getD_map List.length ([] : List Char)
      (chop (a.drop (lt.slen - K)) lt.klen) r (by omega)
    have h2 := getD_map Int.toNat (0 : Int) lt.klen r (by omega)
    simp only [List.length_nil] at h1
    rw [hks_maplen] at h1
    simp only [Int.toNat_zero] at h2
    rw [← h1, h2]
  -- drop a at the k-mer position exposes the clean chunk
  have hposA_drop : a.drop ((a.take (lt.slen - K)).length +
        flatLen (chop (a.drop (lt.slen - K)) lt.klen) r) =
      (chop (a.drop (lt.slen - K)) lt.klen).getD r [] ++
        ((chop (a.drop (lt.slen - K)) lt.klen).drop (r + 1)).flatten := by
    have hcomp : (a.take (lt.slen - K) ++
          (chop (a.drop (lt.slen - K)) lt.klen).flatten).drop
          ((a.take (lt.slen - K)).length +
            flatLen (chop (a.drop (lt.slen - K)) lt.klen) r) =
        (chop (a.drop (lt.slen - K)) lt.klen).getD r [] ++
          ((chop (a.drop (lt.slen - K)) lt.klen).drop (r + 1)).flatten := by
      rw [List.drop_append, flatten_drop_flatLen,
        drop_getD_cons_any ([] : List Char) (by omega), List.flatten_cons]
    rw [← ha2] at hcomp
    exact hcomp
  have htakeA : (a.drop ((a.take (lt.slen - K)).length +
        flatLen (chop (a.drop (lt.slen - K)) lt.klen) r)).take
        ((lt.klen.getD r 0).toNat) =
      (chop (a.drop (lt.slen - K)) lt.klen).getD r [] := by
    rw [hposA_drop, ← hkr_len, List.take_left]
  -- drop b at the shifted position exposes the same chunk
  have hb2 : b = u0 ++ (us.flatten ++ v) := by rw [hb1, hB1]
  have hflatlen_le : flatLen us r ≤ us.flatten.length := by
    rw [List.length_flatten]
    have := List.sum_take_add_sum_drop (us.map List.length) r
    unfold flatLen
    omega
  have hposB_drop : b.drop (u0.length + flatLen us r) =
      us.getD r [] ++ ((us.drop (r + 1)).flatten ++ v) := by
    conv_lhs => rw [hb2]
    rw [List.drop_append, List.drop_append_of_le_length hflatlen_le,
      flatten_drop_flatLen, drop_getD_cons_any ([] : List Char) (by omega),
      List.flatten_cons, List.append_assoc]
  have htakeB : (b.drop (u0.length + flatLen us r)).take
        ((lt.klen.getD r 0).toNat) =
      (chop (a.drop (lt.slen - K)) lt.klen).getD r [] := by
    rw [hposB_drop, hue, ← hkr_len, List.take_left]
  -- offset bookkeeping
  have hpadlen : (a.take (lt.slen - K)).length = lt.slen - K := by
    rw [List.length_take, ha]
    omega
  have hsum_dropN : ((lt.klen.drop r).sum) =
      (((lt.klen.map Int.toNat).drop r).sum : Int) := by
    rw [← List.map_drop]
    exact sum_toNat_of_nonneg _
      (fun y hy => le_trans (by omega) (hpos y (List.mem_of_mem_drop hy)))
  have hsum_splitN := List.sum_take_add_sum_drop (lt.klen.map Int.toNat) r
  rw [hKdef] at hsum_splitN
  have hflatlenA : flatLen (chop (a.drop (lt.slen - K)) lt.klen) r =
      ((lt.klen.map Int.toNat).take r).sum := by
    unfold flatLen
    rw [hks_maplen]
  have hKOffr : kmerOff lt r = (((a.take (lt.slen - K)).length +
      flatLen (chop (a.drop (lt.slen - K)) lt.klen) r : Nat) : Int) := by
    unfold kmerOff
    rw [hsum_dropN, hpadlen, hflatlenA]
    omega
  -- the shift is bounded by the window half-width
  have hlenb : u0.length + (us.map List.length).sum + v.length = lt.slen := by
    have := congrArg List.length hb2
    rw [hb] at this
    simp only [List.length_append, List.length_flatten] at this
    omega
  have hlena : (lt.slen - K) + K = lt.slen := by omega
  have hsplitU := List.sum_take_add_sum_drop (us.map List.length) r
  have hdropU : ((us.map List.length).drop r).sum =
      (us.getD r []).length + ((us.map List.length).drop (r + 1)).sum := by
    rw [drop_getD_cons_any (0 : Nat)
      (by rw [List.length_map]; omega), List.sum_cons]
    have := getD_map List.length ([] : List Char) us r (by omega)
    simp only [List.length_nil] at this
    rw [this]
  have hsplitK := List.sum_take_add_sum_drop (lt.klen.map Int.toNat) r
  have hdropK : ((lt.klen.map Int.toNat).drop r).sum =
      (lt.klen.getD r 0).toNat +
        ((lt.klen.map Int.toNat).drop (r + 1)).sum := by
    rw [drop_getD_cons_any (0 : Nat)
      (by rw [List.length_map]; omega), List.sum_cons]
    have h2 := getD_map Int.toNat (0 : Int) lt.klen r (by omega)
    simp only [Int.toNat_zero] at h2
    rw [h2]
  have huslen_r : (us.getD r []).length = (lt.klen.getD r 0).toNat := by
    rw [hue, hkr_len]
  -- suffix sums after r are within the residual edit budget
  have hchdrop := edChunks_drop (r + 1) hch
  obtain ⟨hsfx1, hsfx2⟩ := edChunks_sum_length hchdrop
  rw [List.map_drop, List.map_drop, hks_maplen] at hsfx1 hsfx2
  have hflu : flatLen us r = ((us.map List.length).take r).sum := rfl
  -- assemble the shift
  refine ⟨r, hrlt, ((u0.length + flatLen us r : Nat) : Int) -
    ((a.take (lt.slen - K)).length +
      flatLen (chop (a.drop (lt.slen - K)) lt.klen) r : Nat), ?_, ?_, ?_, ?_⟩
  · rw [hflu, hflatlenA, hpadlen]
    omega
  · rw [hflu, hflatlenA, hpadlen]
    omega
  · rw [hKOffr]
    omega
  · rw [hKOffr]
    have harith : ((((a.take (lt.slen - K)).length +
        flatLen (chop (a.drop (lt.slen - K)) lt.klen) r : Nat) : Int) +
        (((u0.length + flatLen us r : Nat) : Int) -
          (((a.take (lt.slen - K)).length +
            flatLen (chop (a.drop (lt.slen - K)) lt.klen) r : Nat) : Int))) =
        ((u0.length + flatLen us r : Nat) : Int) := by ring
    have ht1 : ((u0.length + flatLen us r : Nat) : Int).toNat =
        u0.length + flatLen us r := by omega
    rw [harith, ht1, htakeB]
    have ht3 : (((a.take (lt.slen - K)).length +
        flatLen (chop (a.drop (lt.slen - K)) lt.klen) r : Nat) : Int).toNat =
        (a.take (lt.slen - K)).length +
          flatLen (chop (a.drop (lt.slen - K)) lt.klen) r := by omega
    rw [ht3]
    exact htakeA.symm

/-- C3, amended: the k-mer filter produces no false negatives for
sequences over the DNA alphabet that `seq2id` encodes
(`A/C/G/T`, either case, and the padding space — the character `N` is
excluded), for filters whose sizing parameters satisfy
`2*(τ+1) ≤ median ≤ maxlen` (so every k-mer is non-empty and the
windows stay inside the padded sequences, as in every filter the
program builds on such inputs).  If `a` and `b` are padded to the
filter height `maxlen`, `edit_distance(a,b) ≤ τ` (witnessed by an edit
script) and `a` has been inserted, then `lut_search` on `b` returns 1. -/
theorem lut_no_false_negative (med maxlen tau : Nat) (a b : List Char)
    (hmed : 2 * (tau + 1) ≤ med) (hmm : med ≤ maxlen)
    (ha : a.length = maxlen) (hb : b.length = maxlen)
    (hga : ∀ c ∈ a, charCode c ≠ none)
    (hgb : ∀ c ∈ b, charCode c ≠ none)
    (hed : ∃ n, n ≤ tau ∧ ed a b n) :
    lut_search ((lut_insert (new_lookup med maxlen tau) a).1) b = 1 := by
  obtain ⟨hwf1, hwf2, hwf3⟩ := new_lookup_wf med maxlen tau hmed hmm
  have hkm : (new_lookup med maxlen tau).kmers = tau + 1 := rfl
  have hsl : (new_lookup med maxlen tau).slen = maxlen := rfl
  have htbl0 : (new_lookup med maxlen tau).tbl = fun _ _ => false := rfl
  -- the two filters share everything but the bitmaps
  have hklen1 : ((lut_insert (new_lookup med maxlen tau) a).1).klen =
      (new_lookup med maxlen tau).klen := rfl
  have hkm1 : ((lut_insert (new_lookup med maxlen tau) a).1).kmers =
      tau + 1 := rfl
  have hsl1 : ((lut_insert (new_lookup med maxlen tau) a).1).slen =
      maxlen := rfl
  have hko1 : ∀ x, kmerOff ((lut_insert (new_lookup med maxlen tau) a).1) x =
      kmerOff (new_lookup med maxlen tau) x := fun x => rfl
  -- window bounds for both filters
  have hbounds := probe_window_bounds (new_lookup med maxlen tau)
    (by rw [hwf1, hkm]) hwf2 (by rw [hkm, hsl]; omega)
  -- every insert window (the j = 0 probe) has a non-negative code on a
  have hcodeA : ∀ x, x < tau + 1 →
      0 ≤ seq2id (a.drop (kmerOff (new_lookup med maxlen tau) x).toNat)
        (((new_lookup med maxlen tau).klen.getD x 0).toNat) := by
    intro x hx
    have h0 : (0 : Int) ∈ winList ((new_lookup med maxlen tau).kmers - 1 - x) := by
      rw [mem_winList]
      constructor <;> simp
    obtain ⟨hlo, hhi⟩ := hbounds x (by rw [hkm]; omega) 0 h0
    rw [add_zero] at hlo hhi
    refine seq2id_nonneg _ _ ?_ ?_
    · rw [List.length_drop, ha]
      rw [hsl] at hhi
      omega
    · intro c hc
      exact hga c (List.mem_of_mem_drop (List.mem_of_mem_take hc))
  -- every search window has a non-negative code on b
  have hcodeB : ∀ x, x < tau + 1 →
      ∀ j ∈ winList ((new_lookup med maxlen tau).kmers - 1 - x),
      0 ≤ seq2id (b.drop (kmerOff (new_lookup med maxlen tau) x + j).toNat)
        (((new_lookup med maxlen tau).klen.getD x 0).toNat) := by
    intro x hx j hj
    obtain ⟨hlo, hhi⟩ := hbounds x (by rw [hkm]; omega) j hj
    refine seq2id_nonneg _ _ ?_ ?_
    · rw [List.length_drop, hb]
      rw [hsl] at hhi
      omega
    · intro c hc
      exact hgb c (List.mem_of_mem_drop (List.mem_of_mem_take hc))
  -- run the insertion
  have hoff0 : kmerOff (new_lookup med maxlen tau)
      ((new_lookup med maxlen tau).kmers) =
      (((new_lookup med maxlen tau).slen : Nat) : Int) := by
    unfold kmerOff
    rw [List.drop_eq_nil_of_le (by rw [hwf1, hkm])]
    simp
  obtain ⟨r1, r2, r3, r4, r5, r6⟩ :=
    lut_insert_go_spec a (new_lookup med maxlen tau)
      ((new_lookup med maxlen tau).kmers) ((new_lookup med maxlen tau).tbl)
      (by rw [hwf1, hkm])
  have hins_tbl : ((lut_insert (new_lookup med maxlen tau) a).1).tbl =
      (lut_insert_go a (new_lookup med maxlen tau).klen
        ((new_lookup med maxlen tau).tbl)
        ((new_lookup med maxlen tau).kmers)
        (kmerOff (new_lookup med maxlen tau)
          ((new_lookup med maxlen tau).kmers))).1 := by
    rw [hoff0]
    rfl
  have hins_ret : ((lut_insert (new_lookup med maxlen tau) a)).2 =
      (lut_insert_go a (new_lookup med maxlen tau).klen
        ((new_lookup med maxlen tau).tbl)
        ((new_lookup med maxlen tau).kmers)
        (kmerOff (new_lookup med maxlen tau)
          ((new_lookup med maxlen tau).kmers))).2 := by
    rw [hoff0]
    rfl
  have hret0 : (lut_insert_go a (new_lookup med maxlen tau).klen
      ((new_lookup med maxlen tau).tbl)
      ((new_lookup med maxlen tau).kmers)
      (kmerOff (new_lookup med maxlen tau)
        ((new_lookup med maxlen tau).kmers))).2 = 0 := by
    rcases r1 with h | h
    · exact h
    · exfalso
      obtain ⟨x, hx, hneg2⟩ := r2.mp h
      have := hcodeA x (by rw [hkm] at hx; omega)
      rw [hneg2] at this
      exact absurd this (by decide)
  have hbits : ∀ x, x < tau + 1 →
      ((lut_insert (new_lookup med maxlen tau) a).1).tbl x
        (seq2id (a.drop (kmerOff (new_lookup med maxlen tau) x).toNat)
          (((new_lookup med maxlen tau).klen.getD x 0).toNat)).toNat = true := by
    intro x hx
    rw [hins_tbl]
    obtain ⟨c1, c2⟩ := r6 hret0 x (by rw [hkm]; omega)
    refine c2 _ ?_
    rw [Int.toNat_of_nonneg (hcodeA x hx)]
  -- run the search
  obtain ⟨nn, hnn, hscript⟩ := hed
  obtain ⟨r, hrlt, sft, hs1, hs2, hs3, hs4⟩ :=
    clean_kmer_occurrence (new_lookup med maxlen tau) a b tau nn
      (by rw [hwf1]) hwf2 (by rw [hsl]; omega) (by rw [hsl]; omega)
      (by rw [hsl]; omega) hscript hnn
  -- no window reaches the terminator
  have Hno : ∀ x, x < (new_lookup med maxlen tau).kmers →
      ∀ j ∈ winList ((new_lookup med maxlen tau).kmers - 1 - x),
      seq2id (b.drop (kmerOff (new_lookup med maxlen tau) x + j).toNat)
        (((new_lookup med maxlen tau).klen.getD x 0).toNat) ≠ -2 := by
    intro x hx j hj hc
    have h2 := hcodeB x (by rw [hkm] at hx; exact hx) j hj
    rw [hc] at h2
    exact absurd h2 (by decide)
  -- the clean k-mer window hits the inserted bit
  have Hhit : ∃ x, x < (new_lookup med maxlen tau).kmers ∧
      ∃ j ∈ winList ((new_lookup med maxlen tau).kmers - 1 - x),
      0 ≤ seq2id (b.drop (kmerOff (new_lookup med maxlen tau) x + j).toNat)
        (((new_lookup med maxlen tau).klen.getD x 0).toNat) ∧
      ((lut_insert (new_lookup med maxlen tau) a).1).tbl x
        (seq2id (b.drop (kmerOff (new_lookup med maxlen tau) x + j).toNat)
          (((new_lookup med maxlen tau).klen.getD x 0).toNat)).toNat = true := by
    have hceq : seq2id
        (b.drop (kmerOff (new_lookup med maxlen tau) r + sft).toNat)
        (((new_lookup med maxlen tau).klen.getD r 0).toNat) =
        seq2id (a.drop (kmerOff (new_lookup med maxlen tau) r).toNat)
        (((new_lookup med maxlen tau).klen.getD r 0).toNat) :=
      seq2id_take_congr hs4
    refine ⟨r, by rw [hkm]; omega, sft, ?_, ?_, ?_⟩
    · rw [mem_winList]
      have he : (new_lookup med maxlen tau).kmers - 1 - r = tau - r := by
        omega
      rw [he]
      exact ⟨hs1, hs2⟩
    · rw [hceq]
      exact hcodeA r hrlt
    · rw [hceq]
      exact hbits r hrlt
  have hkl1 : ((lut_insert (new_lookup med maxlen tau) a).1).klen.length =
      ((lut_insert (new_lookup med maxlen tau) a).1).kmers := by
    rw [hklen1, hwf1, hkm1]
  have hle1 : (new_lookup med maxlen tau).kmers ≤
      ((lut_insert (new_lookup med maxlen tau) a).1).kmers := by
    rw [hkm, hkm1]
  have hfinal := lut_search_go_one
    ((lut_insert (new_lookup med maxlen tau) a).1) b hkl1
    ((new_lookup med maxlen tau).kmers) hle1 Hno Hhit
  have hoff1 : kmerOff ((lut_insert (new_lookup med maxlen tau) a).1)
      ((new_lookup med maxlen tau).kmers) =
      ((((lut_insert (new_lookup med maxlen tau) a).1).slen : Nat) : Int) := by
    unfold kmerOff
    rw [List.drop_eq_nil_of_le (le_of_eq (by rw [hklen1, hwf1, hkm]))]
    simp
  show lut_search_go ((lut_insert (new_lookup med maxlen tau) a).1) b
    ((new_lookup med maxlen tau).kmers)
    ((((lut_insert (new_lookup med maxlen tau) a).1).slen : Nat) : Int) = 1
  rw [← hoff1]
  exact hfinal

/-- Witness for the amended C3 theorem at a concrete input: an
8-character DNA sequence inserted into a filter with `med = maxlen = 8`
and `τ = 1` is found again by `lut_search`. -/
theorem lut_no_false_negative_witness :
    (∃ n, n ≤ 1 ∧
      ed ['A','C','G','T','A','C','G','T'] ['A','C','G','T','A','C','G','T'] n) ∧
    lut_search ((lut_insert (new_lookup 8 8 1)
        ['A','C','G','T','A','C','G','T']).1)
      ['A','C','G','T','A','C','G','T'] = 1 :=
  ⟨⟨0, by omega, ed_refl _⟩,
   lut_no_false_negative 8 8 1
     ['A','C','G','T','A','C','G','T'] ['A','C','G','T','A','C','G','T']
     (by decide) (by decide) (by decide) (by decide)
     (by decide) (by decide) ⟨0, by omega, ed_refl _⟩⟩

end Starcode
